import Mathlib

/-!
# Verification of the thumbnail-generator composition and export pipeline

A shallow embedding of the pure algorithmic core of the repository:
resolution parsing, text wrapping, token substitution, topic-line
splitting, ellipsis truncation, the procedural layout geometry, and the
best-effort SVG image inliner.  JavaScript strings are modelled as
`List Char`, JavaScript numbers as exact rationals (`ℚ`) or naturals
where the code only manipulates integers, and network / DOM effects as
explicit oracles passed in as function arguments.
-/

set_option autoImplicit false

namespace Thumb

/-! ## Character classes and basic string helpers

`isWs` models the core of the JavaScript `\s` character class and of
`String.prototype.trim` (the ASCII whitespace characters; the exotic
Unicode space code points accepted by JS are omitted, none of the
claims depends on them).  `isDigit` models `\d` (exactly `0-9`). -/

def chars (s : String) : List Char := s.data

def isWs (c : Char) : Bool :=
  c.toNat == 32 || c.toNat == 9 || c.toNat == 10 || c.toNat == 13 || c.toNat == 11 || c.toNat == 12

def isDigit (c : Char) : Bool :=
  48 ≤ c.toNat && c.toNat ≤ 57

/-- `String.prototype.trimStart`. -/
def trimStart (s : List Char) : List Char := s.dropWhile isWs

/-- `String.prototype.trimEnd`. -/
def trimEnd (s : List Char) : List Char := (s.reverse.dropWhile isWs).reverse

/-- `String.prototype.trim`. -/
def trim (s : List Char) : List Char := trimEnd (trimStart s)

/-- Value of a string of decimal digits (`Number` applied to the digit
capture of the resolution regex). -/
def digitsToNat (l : List Char) : ℕ := l.foldl (fun n c => 10 * n + (c.toNat - 48)) 0

/-! ## parseResolution (src/unnamed/part_000, lines 72-87)

```
let width = 1920, height = 1080
if (typeof resolution === 'string') {
  const match = resolution.trim().match(/^(\d+)\s*x\s*(\d+)$/i)
  if (match) { ... if (... parsedWidth > 0 && parsedHeight > 0) { width = ...; height = ... } }
}
return [width, height]
```

`matchResolution` is a character-level rendering of the anchored regex
`^(\d+)\s*x\s*(\d+)$` with the `i` flag (so the separator may be `x` or
`X`).  `Number` on a digit capture is modelled exactly by `digitsToNat`
(the claims do not exercise digit strings long enough for IEEE-754
rounding or overflow to `Infinity` to matter, and `Number.isFinite`
is then always true). A non-string argument is modelled by `none`. -/

def matchResolution (cs : List Char) : Option (ℕ × ℕ) :=
  let d1 := cs.takeWhile isDigit
  let r2 := (cs.dropWhile isDigit).dropWhile isWs
  if d1 = [] then none
  else if r2 = [] then none
  else if r2.headI = 'x' ∨ r2.headI = 'X' then
    let r4 := r2.tail.dropWhile isWs
    let d2 := r4.takeWhile isDigit
    let r5 := r4.dropWhile isDigit
    if d2 = [] ∨ r5 ≠ [] then none
    else some (digitsToNat d1, digitsToNat d2)
  else none

def parseResolution (input : Option (List Char)) : ℕ × ℕ :=
  match input with
  | none => (1920, 1080)
  | some s =>
    match matchResolution (trim s) with
    | some (w, h) => if 0 < w ∧ 0 < h then (w, h) else (1920, 1080)
    | none => (1920, 1080)

/-! Spec-side description of the accepted resolution strings, written
from the claim's words: a string of the form
`"<positive-integer>x<positive-integer>"` with case-insensitive `x` and
optional whitespace around it, both components positive. -/

/-- A non-empty string of decimal digits. -/
def DigitStr (l : List Char) : Prop := l ≠ [] ∧ ∀ c ∈ l, isDigit c = true

/-- A (possibly empty) string of whitespace. -/
def WsStr (l : List Char) : Prop := ∀ c ∈ l, isWs c = true

/-- The raw shape `<digits> <ws> x <ws> <digits>` (without the positivity
requirement), together with the values of the two components. -/
def RawForm (s : List Char) (w h : ℕ) : Prop :=
  ∃ d1 w1 x w2 d2, s = d1 ++ w1 ++ x :: (w2 ++ d2) ∧ DigitStr d1 ∧ WsStr w1 ∧
    (x = 'x' ∨ x = 'X') ∧ WsStr w2 ∧ DigitStr d2 ∧
    w = digitsToNat d1 ∧ h = digitsToNat d2

/-- The claim's accepted-input predicate: the raw shape with both
components positive. -/
def ClaimForm (s : List Char) (w h : ℕ) : Prop :=
  RawForm s w h ∧ 0 < w ∧ 0 < h

/-! ### Helper lemmas about takeWhile/dropWhile -/

theorem takeWhile_append_all {α : Type} (p : α → Bool) (l1 l2 : List α)
    (h : ∀ c ∈ l1, p c = true) :
    (l1 ++ l2).takeWhile p = l1 ++ l2.takeWhile p := by
  induction l1 with
  | nil => simp
  | cons a l ih =>
    have ha : p a = true := h a (List.mem_cons_self a l)
    simp [List.takeWhile_cons, ha]
    exact ih (fun c hc => h c (List.mem_cons_of_mem a hc))

theorem dropWhile_append_all {α : Type} (p : α → Bool) (l1 l2 : List α)
    (h : ∀ c ∈ l1, p c = true) :
    (l1 ++ l2).dropWhile p = l2.dropWhile p := by
  induction l1 with
  | nil => simp
  | cons a l ih =>
    have ha : p a = true := h a (List.mem_cons_self a l)
    simp [List.dropWhile_cons, ha]
    exact ih (fun c hc => h c (List.mem_cons_of_mem a hc))

theorem takeWhile_cons_false {α : Type} (p : α → Bool) (a : α) (l : List α)
    (h : p a = false) : (a :: l).takeWhile p = [] := by
  simp [List.takeWhile_cons, h]

theorem dropWhile_cons_false {α : Type} (p : α → Bool) (a : α) (l : List α)
    (h : p a = false) : (a :: l).dropWhile p = a :: l := by
  simp [List.dropWhile_cons, h]

theorem takeWhile_all {α : Type} (p : α → Bool) (l : List α)
    (h : ∀ c ∈ l, p c = true) : l.takeWhile p = l := by
  have := takeWhile_append_all p l [] h
  simpa using this

theorem dropWhile_all {α : Type} (p : α → Bool) (l : List α)
    (h : ∀ c ∈ l, p c = true) : l.dropWhile p = [] := by
  have := dropWhile_append_all p l [] h
  simpa using this

/-- Every member of `takeWhile p l` satisfies `p`. -/
theorem mem_takeWhile_sat {α : Type} (p : α → Bool) (l : List α) :
    ∀ c ∈ l.takeWhile p, p c = true := by
  induction l with
  | nil => simp
  | cons a t ih =>
    intro c hc
    by_cases ha : p a = true
    · rw [List.takeWhile_cons, if_pos ha] at hc
      rcases List.mem_cons.mp hc with rfl | hmem
      · exact ha
      · exact ih c hmem
    · rw [List.takeWhile_cons, if_neg ha] at hc
      exact absurd hc (List.not_mem_nil c)

/-- The head of `dropWhile p l`, when it exists, falsifies `p`. -/
theorem dropWhile_head_false {α : Type} (p : α → Bool) :
    ∀ (l : List α) (c : α) (t : List α), l.dropWhile p = c :: t → p c = false := by
  intro l
  induction l with
  | nil => intro c t h; simp at h
  | cons a l2 ih =>
    intro c t h
    by_cases ha : p a = true
    · rw [List.dropWhile_cons, if_pos ha] at h
      exact ih c t h
    · rw [List.dropWhile_cons, if_neg ha] at h
      cases h
      exact Bool.eq_false_iff.mpr ha

/-- A whitespace character is not a digit. -/
theorem ws_not_digit (c : Char) (h : isWs c = true) : isDigit c = false := by
  have hn : c.toNat = 32 ∨ c.toNat = 9 ∨ c.toNat = 10 ∨ c.toNat = 13 ∨
      c.toNat = 11 ∨ c.toNat = 12 := by
    simpa [isWs, or_assoc] using h
  simp only [isDigit, Bool.and_eq_false_iff, decide_eq_false_iff_not, not_le]
  omega

/-- A digit character is not whitespace. -/
theorem digit_not_ws (c : Char) (h : isDigit c = true) : isWs c = false := by
  have hn : 48 ≤ c.toNat ∧ c.toNat ≤ 57 := by
    simpa [isDigit] using h
  simp only [isWs, Bool.or_eq_false_iff, beq_eq_false_iff_ne, ne_eq]
  omega

theorem x_not_digit (x : Char) (hx : x = 'x' ∨ x = 'X') : isDigit x = false := by
  rcases hx with rfl | rfl <;> decide

theorem x_not_ws (x : Char) (hx : x = 'x' ∨ x = 'X') : isWs x = false := by
  rcases hx with rfl | rfl <;> decide

/-- The character-level matcher agrees exactly with the claim's
`<digits> <ws> x/X <ws> <digits>` decomposition. -/
theorem matchResolution_iff_rawForm (s : List Char) (w h : ℕ) :
    matchResolution s = some (w, h) ↔ RawForm s w h := by
  constructor
  · intro hm
    simp only [matchResolution] at hm
    split at hm
    · exact absurd hm (by simp)
    rename_i hempty
    split at hm
    · exact absurd hm (by simp)
    rename_i hr2ne
    split at hm
    swap
    · exact absurd hm (by simp)
    rename_i hc
    split at hm
    · exact absurd hm (by simp)
    rename_i hbad
    simp only [Option.some.injEq, Prod.mk.injEq] at hm
    push_neg at hbad
    set d1 := s.takeWhile isDigit with hd1
    set r1 := s.dropWhile isDigit with hr1
    set r2 := r1.dropWhile isWs with hr2def
    obtain ⟨c, r3, hr2⟩ : ∃ c r3, r2 = c :: r3 := by
      rcases hx : r2 with _ | ⟨c, r3⟩
      · exact absurd hx hr2ne
      · exact ⟨c, r3, rfl⟩
    rw [hr2] at hc
    simp only [List.headI] at hc
    have htl : r2.tail = r3 := by rw [hr2]; rfl
    rw [htl] at hm hbad
    set r4 := r3.dropWhile isWs with hr4
    set d2 := r4.takeWhile isDigit with hd2
    set r5 := r4.dropWhile isDigit with hr5
    -- assemble the decomposition
    refine ⟨d1, r1.takeWhile isWs, c, r3.takeWhile isWs, d2, ?_, ?_, ?_, ?_, ?_, ?_, ?_, ?_⟩
    · have e1 : s = d1 ++ r1 := (List.takeWhile_append_dropWhile ..).symm
      have e2 : r1 = r1.takeWhile isWs ++ (c :: r3) := by
        conv_lhs => rw [← List.takeWhile_append_dropWhile (p := isWs) (l := r1)]
        rw [← hr2def, hr2]
      have e3 : r3 = r3.takeWhile isWs ++ r4 := by
        rw [hr4]; exact (List.takeWhile_append_dropWhile ..).symm
      have e4 : r4 = d2 := by
        have e5 : r4 = d2 ++ r5 := by
          rw [hd2, hr5]; exact (List.takeWhile_append_dropWhile ..).symm
        rw [e5, hbad.2, List.append_nil]
      calc s = d1 ++ r1 := e1
        _ = d1 ++ (r1.takeWhile isWs ++ c :: r3) := by conv_lhs => rw [e2]
        _ = d1 ++ (r1.takeWhile isWs ++ c :: (r3.takeWhile isWs ++ r4)) := by
            conv_lhs => rw [e3]
        _ = d1 ++ r1.takeWhile isWs ++ c :: (r3.takeWhile isWs ++ d2) := by
            rw [e4]; simp [List.append_assoc]
    · exact ⟨hempty, mem_takeWhile_sat isDigit s⟩
    · exact mem_takeWhile_sat isWs r1
    · exact hc
    · exact mem_takeWhile_sat isWs r3
    · exact ⟨hbad.1, mem_takeWhile_sat isDigit r4⟩
    · exact hm.1.symm
    · exact hm.2.symm
  · rintro ⟨d1, w1, x, w2, d2, rfl, ⟨hd1ne, hd1⟩, hw1, hx, hw2, ⟨hd2ne, hd2⟩, rfl, rfl⟩
    simp only [matchResolution]
    have hxd : isDigit x = false := x_not_digit x hx
    have hxw : isWs x = false := x_not_ws x hx
    -- head of w1 ++ x :: (w2 ++ d2) is not a digit
    have htail : (w1 ++ x :: (w2 ++ d2)).takeWhile isDigit = [] := by
      cases w1 with
      | nil => simpa using takeWhile_cons_false isDigit x (w2 ++ d2) hxd
      | cons a t =>
        have ha : isWs a = true := hw1 a (List.mem_cons_self a t)
        simpa using takeWhile_cons_false isDigit a (t ++ x :: (w2 ++ d2)) (ws_not_digit a ha)
    have hdtail : (w1 ++ x :: (w2 ++ d2)).dropWhile isDigit = w1 ++ x :: (w2 ++ d2) := by
      cases w1 with
      | nil => simpa using dropWhile_cons_false isDigit x (w2 ++ d2) hxd
      | cons a t =>
        have ha : isWs a = true := hw1 a (List.mem_cons_self a t)
        simpa using dropWhile_cons_false isDigit a (t ++ x :: (w2 ++ d2)) (ws_not_digit a ha)
    have htake : (d1 ++ w1 ++ x :: (w2 ++ d2)).takeWhile isDigit = d1 := by
      rw [List.append_assoc, takeWhile_append_all isDigit d1 _ hd1, htail, List.append_nil]
    have hdrop : (d1 ++ w1 ++ x :: (w2 ++ d2)).dropWhile isDigit = w1 ++ x :: (w2 ++ d2) := by
      rw [List.append_assoc, dropWhile_append_all isDigit d1 _ hd1, hdtail]
    rw [htake, hdrop]
    have hwdrop : (w1 ++ x :: (w2 ++ d2)).dropWhile isWs = x :: (w2 ++ d2) := by
      rw [dropWhile_append_all isWs w1 _ hw1]
      exact dropWhile_cons_false isWs x (w2 ++ d2) hxw
    rw [hwdrop]
    rw [if_neg hd1ne, if_neg (List.cons_ne_nil x (w2 ++ d2))]
    simp only [List.headI, List.tail_cons]
    rw [if_pos hx]
    -- after x: drop whitespace w2, then d2 is all digits
    have hd2head : (w2 ++ d2).dropWhile isWs = d2 := by
      rw [dropWhile_append_all isWs w2 _ hw2]
      cases d2 with
      | nil => simp
      | cons b t =>
        have hb : isDigit b = true := hd2 b (List.mem_cons_self b t)
        exact dropWhile_cons_false isWs b t (digit_not_ws b hb)
    rw [hd2head]
    rw [takeWhile_all isDigit d2 hd2, dropWhile_all isDigit d2 hd2]
    rw [if_neg (by push_neg; exact ⟨hd2ne, rfl⟩)]

/-- A string of the claim's accepted shape starts with a digit. -/
theorem rawForm_head_digit (s : List Char) (w h : ℕ) (hf : RawForm s w h) :
    ∃ c t, s = c :: t ∧ isDigit c = true := by
  rcases hf with ⟨d1, w1, x, w2, d2, hs, ⟨hne, hdig⟩, _⟩
  cases d1 with
  | nil => exact absurd rfl hne
  | cons c t =>
    refine ⟨c, t ++ w1 ++ x :: (w2 ++ d2), ?_, hdig c (List.mem_cons_self c t)⟩
    simpa using hs

/-- A string whose first character is not a digit is not of the claim's
accepted shape. -/
theorem no_claimForm_head (s : List Char) (h : isDigit s.headI = false) :
    ¬ ∃ w h2 : ℕ, ClaimForm s w h2 := by
  rintro ⟨w, h2, ⟨hraw, _, _⟩⟩
  obtain ⟨c, t, hs, hc⟩ := rawForm_head_digit s w h2 hraw
  rw [hs] at h
  simp only [List.headI] at h
  rw [hc] at h
  exact absurd h (by decide)

/-- C4 (amended): `parseResolution` first trims leading and trailing
whitespace from its (string) input; it returns the pair `(w, h)` exactly
when the trimmed input is a string of the form
`"<positive-integer>x<positive-integer>"` with case-insensitive `x`,
optional whitespace around the `x`, and both components positive; for
every other input (non-string, malformed, zero components) it returns
the fixed fallback pair `(1920, 1080)`. -/
theorem parseResolution_spec (s : List Char) :
    parseResolution none = (1920, 1080) ∧
    (∀ w h : ℕ, ClaimForm (trim s) w h → parseResolution (some s) = (w, h)) ∧
    ((¬ ∃ w h : ℕ, ClaimForm (trim s) w h) → parseResolution (some s) = (1920, 1080)) := by
  refine ⟨rfl, ?_, ?_⟩
  · rintro w h ⟨hraw, hw, hh⟩
    simp only [parseResolution]
    rw [(matchResolution_iff_rawForm (trim s) w h).mpr hraw]
    simp [hw, hh]
  · intro hno
    simp only [parseResolution]
    split
    · rename_i w h hm
      have hraw := (matchResolution_iff_rawForm (trim s) w h).mp hm
      have hnp : ¬ (0 < w ∧ 0 < h) := fun hpos => hno ⟨w, h, hraw, hpos.1, hpos.2⟩
      simp [hnp]
    · rfl

/-- C4 witness: the amended theorem at the concrete accepted input
`"2 x 3"` and the concrete rejected input `"axb"`. -/
theorem parseResolution_spec_witness :
    parseResolution (some (chars "2 x 3")) = (2, 3) ∧
    parseResolution (some (chars "axb")) = (1920, 1080) := by
  constructor
  · refine (parseResolution_spec (chars "2 x 3")).2.1 2 3
      ⟨⟨['2'], [' '], 'x', [' '], ['3'], by decide, ⟨by decide, by decide⟩,
        by unfold WsStr; decide, Or.inl rfl, by unfold WsStr; decide,
        ⟨by decide, by decide⟩, by decide, by decide⟩,
      by decide, by decide⟩
  · exact (parseResolution_spec (chars "axb")).2.2
      (no_claimForm_head (trim (chars "axb")) (by decide))

/-- C4 counterexample: the input `" 2x3 "` carries whitespace around the
whole string, so it is not of the claim's accepted shape, yet
`parseResolution` returns `(2, 3)` rather than the claimed fallback
`(1920, 1080)` (the implementation trims the input first). -/
theorem parseResolution_claim_counterexample :
    parseResolution (some (chars " 2x3 ")) = (2, 3) ∧
    (¬ ∃ w h : ℕ, ClaimForm (chars " 2x3 ") w h) ∧
    ((2, 3) : ℕ × ℕ) ≠ (1920, 1080) := by
  refine ⟨by decide, no_claimForm_head (chars " 2x3 ") (by decide), by decide⟩

/-! ## Token substitution (src/unnamed/part_000, lines 199-213)

```
for (const [tokenName, value] of Object.entries(tokens)) {
  const newPattern = new RegExp(`__TOKEN__`, 'g');
  result = result.replace(newPattern, value || '');
  const legacyPattern = ...;  // brace-delimited marker
  result = result.replace(legacyPattern, value || '');
}
```

`strReplaceAll` models `String.prototype.replace` with a global
fixed-string pattern: scan left to right, replace each (non-overlapping)
occurrence, and continue scanning the original string *after* the
occurrence — the freshly inserted replacement is not re-scanned during
that pass.  (JS `$`-substitution patterns inside the replacement string
are not modelled; token names and the repository's replacement values
contain no `$`.)  The scan is written with an explicit character-count
fuel so that it stays structurally recursive; `s.length` fuel is always
sufficient because every step consumes at least one character. -/

def replaceGo (pat rep : List Char) : ℕ → List Char → List Char
  | _, [] => []
  | 0, s => s
  | fuel + 1, c :: rest =>
    if pat ≠ [] ∧ pat.isPrefixOf (c :: rest)
    then rep ++ replaceGo pat rep fuel (rest.drop (pat.length - 1))
    else c :: replaceGo pat rep fuel rest

def strReplaceAll (pat rep s : List Char) : List Char := replaceGo pat rep s.length s

/-- A JavaScript value as it can appear in a token map. `num` is kept to
the integers (the repository never puts a fractional number in a token
map, and JS prints safe integers in plain decimal, as `Int.repr`
does). -/
inductive JsVal where
  | undef : JsVal
  | jsNull : JsVal
  | bool : Bool → JsVal
  | num : ℤ → JsVal
  | str : List Char → JsVal

/-- JavaScript truthiness of a token value. -/
def JsVal.truthy : JsVal → Bool
  | .undef => false
  | .jsNull => false
  | .bool b => b
  | .num n => decide (n ≠ 0)
  | .str s => !s.isEmpty

/-- JavaScript string coercion of a token value. -/
def JsVal.toStr : JsVal → List Char
  | .undef => chars "undefined"
  | .jsNull => chars "null"
  | .bool true => chars "true"
  | .bool false => chars "false"
  | .num n => (toString n).data
  | .str s => s

/-- `value || ''` followed by the string coercion performed by
`String.prototype.replace`. -/
def tokenReplacement (v : JsVal) : List Char :=
  if v.truthy then v.toStr else []

/-- The preferred marker `__NAME__`. -/
def markerU (n : List Char) : List Char := chars "__" ++ n ++ chars "__"

/-- The legacy marker, `NAME` wrapped in doubled braces. -/
def markerB (n : List Char) : List Char := chars "\x7b\x7b" ++ n ++ chars "\x7d\x7d"

def replaceTokens (svgContent : List Char) (tokens : List (List Char × JsVal)) : List Char :=
  tokens.foldl
    (fun result t =>
      strReplaceAll (markerB t.1) (tokenReplacement t.2)
        (strReplaceAll (markerU t.1) (tokenReplacement t.2) result))
    svgContent

/-- `pat` occurs somewhere inside `s` as a contiguous substring. -/
def OccursIn (pat s : List Char) : Prop := ∃ a b, s = a ++ pat ++ b

/-- Executable occurrence check, mirroring `OccursIn`. -/
def occursB (pat : List Char) : List Char → Bool
  | [] => pat.isEmpty
  | c :: rest => pat.isPrefixOf (c :: rest) || occursB pat rest

/-! ### Helper lemmas about isPrefixOf and the fueled scanner -/

theorem isPrefixOf_append {α : Type} [DecidableEq α] :
    ∀ (l t : List α), l.isPrefixOf (l ++ t) = true := by
  intro l
  induction l with
  | nil => intro t; simp
  | cons a l2 ih => intro t; simp [List.isPrefixOf_cons₂, ih t]

theorem isPrefixOf_exists {α : Type} [DecidableEq α] :
    ∀ (l s : List α), l.isPrefixOf s = true → ∃ t, s = l ++ t := by
  intro l
  induction l with
  | nil => intro s _; exact ⟨s, rfl⟩
  | cons a l2 ih =>
    intro s h
    cases s with
    | nil => simp [List.isPrefixOf] at h
    | cons b s2 =>
      simp only [List.isPrefixOf, Bool.and_eq_true, beq_iff_eq] at h
      obtain ⟨t, ht⟩ := ih s2 h.2
      exact ⟨t, by rw [h.1, ht]; rfl⟩

theorem occursB_iff (pat : List Char) :
    ∀ s : List Char, occursB pat s = true ↔ OccursIn pat s := by
  intro s
  induction s with
  | nil =>
    simp only [occursB, List.isEmpty_iff]
    constructor
    · rintro rfl; exact ⟨[], [], rfl⟩
    · rintro ⟨a, b, hab⟩
      rcases List.append_eq_nil.mp (List.append_eq_nil.mp hab.symm).1 with ⟨_, h2⟩
      exact h2
  | cons c rest ih =>
    simp only [occursB, Bool.or_eq_true]
    constructor
    · rintro (h | h)
      · obtain ⟨t, ht⟩ := isPrefixOf_exists pat (c :: rest) h
        exact ⟨[], t, by simpa using ht⟩
      · obtain ⟨a, b, hab⟩ := ih.mp h
        exact ⟨c :: a, b, by rw [hab]; rfl⟩
    · rintro ⟨a, b, hab⟩
      cases a with
      | nil =>
        left
        simp only [List.nil_append] at hab
        rw [hab]
        exact isPrefixOf_append pat b
      | cons a0 a2 =>
        right
        apply ih.mpr
        refine ⟨a2, b, ?_⟩
        have := hab
        simp only [List.cons_append] at this
        exact (List.cons.injEq .. ▸ this).2

theorem not_occursIn_of_check (pat s : List Char) (h : occursB pat s = false) :
    ¬ OccursIn pat s := by
  intro hocc
  rw [(occursB_iff pat s).mpr hocc] at h
  exact absurd h (by decide)

/-- Fuel irrelevance for the replacement scanner: any fuel at least the
length of the input gives the same result. -/
theorem replaceGo_fuel (pat rep : List Char) :
    ∀ fuel1 fuel2 s, s.length ≤ fuel1 → s.length ≤ fuel2 →
      replaceGo pat rep fuel1 s = replaceGo pat rep fuel2 s := by
  intro fuel1
  induction fuel1 with
  | zero =>
    intro fuel2 s h1 _
    cases s with
    | nil => cases fuel2 <;> rfl
    | cons c rest => simp at h1
  | succ f1 ih =>
    intro fuel2 s h1 h2
    cases s with
    | nil => cases fuel2 <;> rfl
    | cons c rest =>
      cases fuel2 with
      | zero => simp at h2
      | succ f2 =>
        simp only [replaceGo]
        by_cases hp : pat ≠ [] ∧ pat.isPrefixOf (c :: rest)
        · rw [if_pos hp, if_pos hp]
          have hlen : (rest.drop (pat.length - 1)).length ≤ rest.length := by
            rw [List.length_drop]; omega
          have hr : rest.length ≤ f1 := by simpa using h1
          have hr2 : rest.length ≤ f2 := by simpa using h2
          rw [ih f2 (rest.drop (pat.length - 1)) (le_trans hlen hr) (le_trans hlen hr2)]
        · rw [if_neg hp, if_neg hp]
          rw [ih f2 rest (by simpa using h1) (by simpa using h2)]

theorem replaceGo_eq_strReplaceAll (pat rep : List Char) (fuel : ℕ) (s : List Char)
    (h : s.length ≤ fuel) : replaceGo pat rep fuel s = strReplaceAll pat rep s :=
  replaceGo_fuel pat rep fuel s.length s h le_rfl

/-- The scanner on the designated first occurrence: if no occurrence of
`pat` starts strictly before position `a.length` in `a ++ pat ++ b`,
then the scan copies `a`, inserts `rep` verbatim, and continues with `b`
alone (the inserted replacement is not re-scanned). -/
theorem strReplaceAll_firstOcc (pat rep a b : List Char) (hpat : pat ≠ [])
    (hfirst : ∀ j < a.length, pat.isPrefixOf ((a ++ pat ++ b).drop j) = false) :
    strReplaceAll pat rep (a ++ pat ++ b) = a ++ rep ++ strReplaceAll pat rep b := by
  induction a with
  | nil =>
    simp only [List.nil_append]
    cases hp : pat with
    | nil => exact absurd hp hpat
    | cons p pt =>
      rw [← hp]
      show replaceGo pat rep (pat ++ b).length (pat ++ b) = rep ++ strReplaceAll pat rep b
      have hlen : (pat ++ b).length = (pt ++ b).length + 1 := by
        simp [hp, List.length_append]
      have hshape : pat ++ b = p :: (pt ++ b) := by rw [hp]; rfl
      rw [hshape, List.length_cons]
      simp only [replaceGo]
      rw [if_pos ⟨hpat, by rw [← hshape]; exact isPrefixOf_append pat b⟩]
      congr 1
      have hdrop : (pt ++ b).drop (pat.length - 1) = b := by
        have : pat.length - 1 = pt.length := by simp [hp]
        rw [this, List.drop_left]
      rw [hdrop]
      exact replaceGo_eq_strReplaceAll pat rep (pt ++ b).length b (by
        simp [List.length_append])
  | cons c a2 ih =>
    have hnot : pat.isPrefixOf (c :: (a2 ++ pat ++ b)) = false := by
      have := hfirst 0 (by simp)
      simpa using this
    show replaceGo pat rep (c :: (a2 ++ pat ++ b)).length (c :: (a2 ++ pat ++ b)) =
      (c :: a2) ++ rep ++ strReplaceAll pat rep b
    rw [List.length_cons]
    simp only [replaceGo]
    rw [if_neg (by rw [hnot]; simp)]
    rw [replaceGo_eq_strReplaceAll pat rep (a2 ++ pat ++ b).length (a2 ++ pat ++ b) le_rfl]
    have hfirst2 : ∀ j < a2.length, pat.isPrefixOf ((a2 ++ pat ++ b).drop j) = false := by
      intro j hj
      have := hfirst (j + 1) (by simpa using Nat.succ_lt_succ hj)
      simpa using this
    rw [ih hfirst2]
    rfl

/-- If `pat` does not occur in `s` at all, the scan leaves `s`
unchanged. -/
theorem strReplaceAll_not_occurs (pat rep s : List Char) (h : ¬ OccursIn pat s) :
    strReplaceAll pat rep s = s := by
  have key : ∀ fuel t, t.length ≤ fuel → ¬ OccursIn pat t → replaceGo pat rep fuel t = t := by
    intro fuel
    induction fuel with
    | zero =>
      intro t h1 _
      cases t with
      | nil => rfl
      | cons c rest => simp at h1
    | succ f ih =>
      intro t h1 hnocc
      cases t with
      | nil => rfl
      | cons c rest =>
        simp only [replaceGo]
        rw [if_neg ?_]
        · rw [ih rest (by simpa using h1) ?_]
          intro ⟨a, b2, hab⟩
          exact hnocc ⟨c :: a, b2, by rw [hab]; rfl⟩
        · rintro ⟨-, hpre⟩
          obtain ⟨t2, ht2⟩ := isPrefixOf_exists pat (c :: rest) hpre
          exact hnocc ⟨[], t2, by simpa using ht2⟩
  exact key s.length s le_rfl h

/-- Replacing a bare marker: the whole string is exactly `pat`, so the
result is exactly the replacement, even when the replacement contains
`pat` itself (no recursive expansion within a pass). -/
theorem strReplaceAll_nil (pat rep : List Char) : strReplaceAll pat rep [] = [] := rfl

theorem strReplaceAll_self (pat rep : List Char) (hpat : pat ≠ []) :
    strReplaceAll pat rep pat = rep := by
  have h := strReplaceAll_firstOcc pat rep [] [] hpat (by intro j hj; simp at hj)
  simpa [strReplaceAll_nil] using h

theorem markerU_ne_nil (n : List Char) : markerU n ≠ [] := by
  intro h
  have hM : markerU n = '_' :: ('_' :: (n ++ chars "__")) := rfl
  rw [hM] at h
  simp at h

/-- C3 (amended): each token's markers are replaced globally, scanning
left to right, and the scan continues past each freshly inserted value,
so a substituted value is never re-scanned for the marker of the token
currently being processed.  However, tokens are processed sequentially,
so a substituted value that textually contains a marker of a token
processed *later* has that marker expanded by the later pass rather
than appearing verbatim. -/
theorem replaceTokens_amended :
    (∀ pat rep a b : List Char, pat ≠ [] →
      (∀ j < a.length, pat.isPrefixOf ((a ++ pat ++ b).drop j) = false) →
      strReplaceAll pat rep (a ++ pat ++ b) = a ++ rep ++ strReplaceAll pat rep b) ∧
    (∀ nA nB vB : List Char,
      ¬ OccursIn (markerB nA) (markerU nB) →
      ¬ OccursIn (markerB nB) vB →
      replaceTokens (markerU nA)
        [(nA, JsVal.str (markerU nB)), (nB, JsVal.str vB)] = vB) := by
  constructor
  · exact strReplaceAll_firstOcc
  · intro nA nB vB h1 h2
    have hrepl : tokenReplacement (JsVal.str (markerU nB)) = markerU nB := by
      have hM : markerU nB = '_' :: ('_' :: (nB ++ chars "__")) := rfl
      rw [hM]
      rfl
    have hreplB :
        strReplaceAll (markerU nB) (tokenReplacement (JsVal.str vB)) (markerU nB) = vB := by
      rcases eq_or_ne vB [] with rfl | hne
      · rw [show tokenReplacement (JsVal.str []) = [] from rfl]
        exact strReplaceAll_self _ _ (markerU_ne_nil nB)
      · have : tokenReplacement (JsVal.str vB) = vB := by
          simp [tokenReplacement, JsVal.truthy, JsVal.toStr, hne]
        rw [this]
        exact strReplaceAll_self _ _ (markerU_ne_nil nB)
    simp only [replaceTokens, List.foldl_cons, List.foldl_nil]
    rw [hrepl, strReplaceAll_self _ _ (markerU_ne_nil nA)]
    rw [strReplaceAll_not_occurs _ _ _ h1]
    rw [hreplB]
    exact strReplaceAll_not_occurs _ _ _ h2

/-- C3 witness: the first-occurrence law at a concrete double
occurrence, and the later-token expansion law at concrete token
names. -/
theorem replaceTokens_amended_witness :
    strReplaceAll (chars "ab") (chars "X") (chars "zabab") = chars "zXX" ∧
    replaceTokens (markerU (chars "A"))
      [(chars "A", JsVal.str (markerU (chars "B"))), (chars "B", JsVal.str (chars "ok"))] =
      chars "ok" := by
  constructor
  · have h1 := replaceTokens_amended.1 (chars "ab") (chars "X") (chars "z") (chars "ab")
      (by decide)
      (by
        intro j hj
        have hj1 : j < 1 := hj
        have hj0 : j = 0 := by omega
        subst hj0
        decide)
    have e : chars "z" ++ chars "ab" ++ chars "ab" = chars "zabab" := by decide
    rw [e] at h1
    rw [h1]
    decide
  · exact replaceTokens_amended.2 (chars "A") (chars "B") (chars "ok")
      (not_occursIn_of_check _ _ (by decide))
      (not_occursIn_of_check _ _ (by decide))

/-- C3 counterexample: with the token map A ↦ "__B__", B ↦ "bob" (in
that order) and the template "__A__", the value substituted for A is
re-scanned by B's later pass: the output is "bob", and the substituted
value "__B__" does not appear verbatim in the output, contradicting the
claim's "no recursive expansion" guarantee. -/
theorem replaceTokens_claim_counterexample :
    replaceTokens (chars "__A__")
      [(chars "A", JsVal.str (chars "__B__")), (chars "B", JsVal.str (chars "bob"))] =
      chars "bob" ∧
    ¬ OccursIn (chars "__B__") (chars "bob") := by
  exact ⟨by decide, not_occursIn_of_check _ _ (by decide)⟩

/-- C8: a token whose value is falsy — undefined, null, false, 0, or
the empty string — is substituted exactly as if its value were the
empty string (`value || ''`), so its markers are removed from the
output rather than replaced by a stringification of the value. -/
theorem replaceTokens_falsy (template : List Char) (pre post : List (List Char × JsVal))
    (n : List Char) (v : JsVal) (hv : v.truthy = false) :
    replaceTokens template (pre ++ (n, v) :: post) =
    replaceTokens template (pre ++ (n, JsVal.str []) :: post) := by
  have hrep : tokenReplacement v = tokenReplacement (JsVal.str []) := by
    rw [show tokenReplacement (JsVal.str []) = [] from rfl]
    simp [tokenReplacement, hv]
  simp only [replaceTokens, List.foldl_append, List.foldl_cons]
  rw [hrep]

/-- C8 witness: the falsy value `0` at a concrete template, and the
resulting marker removal. -/
theorem replaceTokens_falsy_witness :
    replaceTokens (chars "a__K__b") ([] ++ (chars "K", JsVal.num 0) :: []) =
      replaceTokens (chars "a__K__b") ([] ++ (chars "K", JsVal.str []) :: []) ∧
    replaceTokens (chars "a__K__b") [(chars "K", JsVal.num 0)] = chars "ab" := by
  exact ⟨replaceTokens_falsy (chars "a__K__b") [] [] (chars "K") (JsVal.num 0) (by decide),
    by decide⟩

/-! ## inlineSvgImages (src/unnamed/part_000, lines 122-170)

The DOM, the network and the `FileReader` are modelled as oracles:

* `parse` stands for `new DOMParser().parseFromString(s, 'image/svg+xml')`
  followed by reading `documentElement`; `none` is a missing root, and a
  parse error surfaces as a document whose root is `parsererror`.
* One `FetchOutcome` per image index stands for the per-image
  `new URL(...)` / `fetch` / `blob` / `blobToDataUrl` pipeline:
  `badUrl` is the URL constructor throwing, `netError` any rejected
  promise (network failure, the 10-second abort, or a blob read error —
  all are caught by the same `catch`), `httpNotOk` a settled response
  with `response.ok` false, and `success d` a settled, converted data
  URL `d`.
* `serialize` stands for `new XMLSerializer().serializeToString`.

`Promise.all` over `images.map(...)` mutates each `image` element
independently, one element per promise, so its semantics on this state
is exactly the per-index map `inlineImages`. -/

inductive FetchOutcome where
  | badUrl : FetchOutcome
  | netError : FetchOutcome
  | httpNotOk : ℕ → FetchOutcome
  | success : List Char → FetchOutcome
deriving DecidableEq

/-- An image failed to inline (every outcome except `success`). -/
def FetchFailed : FetchOutcome → Prop
  | .badUrl => True
  | .netError => True
  | .httpNotOk _ => True
  | .success _ => False

structure SvgImage where
  href : Option (List Char)
  xlinkHref : Option (List Char)
deriving DecidableEq

structure SvgDoc where
  rootName : List Char
  xmlns : Option (List Char)
  xmlnsXlink : Option (List Char)
  images : List SvgImage
deriving DecidableEq

/-- `img.getAttribute('href') || img.getAttribute('xlink:href')`: an
absent attribute is `null` (`none`) and an empty attribute string is
falsy as well. -/
def effectiveHref (img : SvgImage) : Option (List Char) :=
  match img.href with
  | some s => if s = [] then img.xlinkHref else some s
  | none => img.xlinkHref

/-- One image element under its fetch outcome: skip when there is no
usable href or it is already a data URL; on success set both `href` and
`xlink:href` to the data URL; on any failure leave the element
untouched. -/
def inlineImage (outcome : FetchOutcome) (img : SvgImage) : SvgImage :=
  match effectiveHref img with
  | none => img
  | some h =>
    if h = [] ∨ (chars "data:").isPrefixOf h then img
    else
      match outcome with
      | .badUrl => img
      | .netError => img
      | .httpNotOk _ => img
      | .success d => { href := some d, xlinkHref := some d }

def inlineImages (outcomes : ℕ → FetchOutcome) : ℕ → List SvgImage → List SvgImage
  | _, [] => []
  | i, img :: rest => inlineImage (outcomes i) img :: inlineImages outcomes (i + 1) rest

/-- `if (!svg.getAttribute('xmlns')) svg.setAttribute('xmlns', v)`. -/
def ensureAttr (o : Option (List Char)) (v : List Char) : Option (List Char) :=
  match o with
  | none => some v
  | some s => if s = [] then some v else some s

def processDoc (outcomes : ℕ → FetchOutcome) (doc : SvgDoc) : SvgDoc :=
  { rootName := doc.rootName
    xmlns := ensureAttr doc.xmlns (chars "http://www.w3.org/2000/svg")
    xmlnsXlink := ensureAttr doc.xmlnsXlink (chars "http://www.w3.org/1999/xlink")
    images := inlineImages outcomes 0 doc.images }

/-- `nodeName.toLowerCase()`. -/
def toLowerStr (l : List Char) : List Char := l.map Char.toLower

def inlineSvgImages (parse : List Char → Option SvgDoc) (serialize : SvgDoc → List Char)
    (outcomes : ℕ → FetchOutcome) (svgString : List Char) : List Char :=
  if svgString = [] then svgString
  else
    match parse svgString with
    | none => svgString
    | some doc =>
      if toLowerStr doc.rootName ≠ chars "svg" then svgString
      else serialize (processDoc outcomes doc)

theorem inlineImage_failed (o : FetchOutcome) (img : SvgImage) (h : FetchFailed o) :
    inlineImage o img = img := by
  unfold inlineImage
  split
  · rfl
  · split
    · rfl
    · cases o with
      | badUrl => rfl
      | netError => rfl
      | httpNotOk s => rfl
      | success d => exact absurd h (by simp [FetchFailed])

theorem inlineImages_getElem (outcomes : ℕ → FetchOutcome) :
    ∀ (l : List SvgImage) (start j : ℕ),
      (inlineImages outcomes start l)[j]? =
        (l[j]?).map (inlineImage (outcomes (start + j))) := by
  intro l
  induction l with
  | nil => intro start j; simp [inlineImages]
  | cons img rest ih =>
    intro start j
    cases j with
    | zero => simp [inlineImages]
    | succ j2 =>
      simp only [inlineImages, List.getElem?_cons_succ]
      rw [ih (start + 1) j2, show start + 1 + j2 = start + (j2 + 1) from by omega]

/-- C2: inlining is best-effort per image.  For any parsed document and
any combination of per-image fetch outcomes, an image whose fetch fails
(bad URL, network error/timeout, or non-success HTTP status) is left
exactly as it was in the input document; every image is processed from
its own outcome alone, so one failure never prevents another image from
being inlined; and the overall operation still returns the serialized
processed document. -/
theorem inlineSvgImages_best_effort (doc : SvgDoc) (outcomes : ℕ → FetchOutcome)
    (parse : List Char → Option SvgDoc) (serialize : SvgDoc → List Char)
    (svgString : List Char) (i : ℕ)
    (hparse : parse svgString = some doc)
    (hroot : toLowerStr doc.rootName = chars "svg")
    (hne : svgString ≠ [])
    (hfail : FetchFailed (outcomes i)) :
    (processDoc outcomes doc).images[i]? = doc.images[i]? ∧
    (∀ j : ℕ, (processDoc outcomes doc).images[j]? =
      (doc.images[j]?).map (inlineImage (outcomes j))) ∧
    inlineSvgImages parse serialize outcomes svgString = serialize (processDoc outcomes doc) := by
  have hall : ∀ j : ℕ, (processDoc outcomes doc).images[j]? =
      (doc.images[j]?).map (inlineImage (outcomes j)) := by
    intro j
    show (inlineImages outcomes 0 doc.images)[j]? = _
    rw [inlineImages_getElem outcomes doc.images 0 j, Nat.zero_add]
  refine ⟨?_, hall, ?_⟩
  · rw [hall i]
    cases himg : doc.images[i]? with
    | none => rfl
    | some img => simp [inlineImage_failed (outcomes i) img hfail]
  · unfold inlineSvgImages
    rw [if_neg hne, hparse]
    simp only [hroot, ne_eq, not_true_eq_false, if_false]

/-- C2 example document and outcomes for the witness: two remote
images, the first fetch fails, the second succeeds. -/
def exDoc : SvgDoc :=
  ⟨chars "svg", none, none,
    [⟨some (chars "http://a/one.png"), none⟩, ⟨some (chars "http://a/two.png"), none⟩]⟩

def exOutcomes : ℕ → FetchOutcome
  | 0 => .netError
  | _ => .success (chars "data:image/png;base64,AA")

/-- C2 witness: on the concrete document, the failed image 0 keeps its
original href and the successful image 1 is still inlined. -/
theorem inlineSvgImages_best_effort_witness :
    (processDoc exOutcomes exDoc).images[0]? = exDoc.images[0]? ∧
    (processDoc exOutcomes exDoc).images[1]? =
      some ⟨some (chars "data:image/png;base64,AA"), some (chars "data:image/png;base64,AA")⟩ := by
  have h := inlineSvgImages_best_effort exDoc exOutcomes (fun _ => some exDoc) (fun _ => [])
    (chars "<svg/>") 0 rfl (by decide) (by decide) trivial
  refine ⟨h.1, ?_⟩
  rw [h.2.1 1]
  decide

/-- C10: `inlineSvgImages` returns its input string completely
unchanged whenever the input is empty, fails to parse, or parses to a
document whose root element is not an `svg` element; only for a
well-formed `svg` root does it proceed to modification and
re-serialization. -/
theorem inlineSvgImages_guard (parse : List Char → Option SvgDoc)
    (serialize : SvgDoc → List Char) (outcomes : ℕ → FetchOutcome) (s : List Char) :
    (s = [] → inlineSvgImages parse serialize outcomes s = s) ∧
    (parse s = none → inlineSvgImages parse serialize outcomes s = s) ∧
    (∀ doc, parse s = some doc → toLowerStr doc.rootName ≠ chars "svg" →
      inlineSvgImages parse serialize outcomes s = s) ∧
    (∀ doc, s ≠ [] → parse s = some doc → toLowerStr doc.rootName = chars "svg" →
      inlineSvgImages parse serialize outcomes s = serialize (processDoc outcomes doc)) := by
  refine ⟨?_, ?_, ?_, ?_⟩
  · intro hs
    unfold inlineSvgImages
    rw [if_pos hs]
  · intro hp
    unfold inlineSvgImages
    split
    · rfl
    · rw [hp]
  · intro doc hp hroot
    unfold inlineSvgImages
    split
    · rfl
    · rw [hp]
      exact if_pos hroot
  · intro doc hne hp hroot
    unfold inlineSvgImages
    rw [if_neg hne, hp]
    simp only [hroot, ne_eq, not_true_eq_false, if_false]

/-- C10 witness: the guard theorem at a concrete non-parsing input and
at a concrete well-formed `svg` input. -/
theorem inlineSvgImages_guard_witness :
    inlineSvgImages (fun _ => none) (fun _ => chars "S") (fun _ => FetchOutcome.netError)
      (chars "<p>") = chars "<p>" ∧
    inlineSvgImages (fun _ => some ⟨chars "svg", none, none, []⟩) (fun _ => chars "S")
      (fun _ => FetchOutcome.netError) (chars "<svg/>") = chars "S" := by
  constructor
  · exact (inlineSvgImages_guard (fun _ => none) (fun _ => chars "S")
      (fun _ => FetchOutcome.netError) (chars "<p>")).2.1 rfl
  · have h := (inlineSvgImages_guard (fun _ => some ⟨chars "svg", none, none, []⟩)
      (fun _ => chars "S") (fun _ => FetchOutcome.netError) (chars "<svg/>")).2.2.2
      ⟨chars "svg", none, none, []⟩ (by decide) rfl (by decide)
    rw [h]

/-! ## Layout geometry of generateSvg (src/unnamed/part_000, lines 542-627)

The deterministic geometric quantities computed by `generateSvg`,
transcribed value for value with JS float arithmetic modelled as exact
rational arithmetic (`0.48 = 48/100`, `1.1 = 11/10`, `0.55 = 55/100`).
The measured-text quantities (pill width, wrapped line counts) depend
on the canvas text-measurement oracle and are not part of the claimed
dimension list; they are treated separately by the wrapping lemmas. -/

/-- `const scale = width / 1920`. -/
def lgScale (w : ℚ) : ℚ := w / 1920

/-- `const logoGap = (logoCount === 3 ? 18 : 24) * scale`. -/
def lgGap (w : ℚ) (n : ℕ) : ℚ := (if n = 3 then 18 else 24) * lgScale w

/-- `logoCircleRadius`: `205 * scale`, shrunk to the fit radius
`(maxStackHeight - (n-1)*gap) / (2n)` when more than one logo. -/
def lgRadius (w h : ℚ) (n : ℕ) : ℚ :=
  if 1 < n then
    min (205 * lgScale w)
      ((max 0 (h - 2 * (55 * lgScale w)) - ((n : ℚ) - 1) * lgGap w n) / (2 * (n : ℚ)))
  else 205 * lgScale w

/-- `logoSpacing = logoCircleRadius * 2 + logoGap` (0 when at most one
logo). -/
def lgSpacing (w h : ℚ) (n : ℕ) : ℚ :=
  if 1 < n then 2 * lgRadius w h n + lgGap w n else 0

/-- `stackHeight = logoCount*2*radius + (logoCount-1)*gap`. -/
def lgStackHeight (w h : ℚ) (n : ℕ) : ℚ :=
  (n : ℚ) * 2 * lgRadius w h n + ((n : ℚ) - 1) * lgGap w n

/-- `logoStartY`: `stackTop + radius` with
`stackTop = max(logoEdgeMarginY, (height - stackHeight)/2)` for more
than one logo, `height * 0.48` otherwise. -/
def lgStartY (w h : ℚ) (n : ℕ) : ℚ :=
  if 1 < n then
    max (55 * lgScale w) ((h - lgStackHeight w h n) / 2) + lgRadius w h n
  else h * (48 / 100)

/-- `logoStaggerX = logoCircleRadius * 0.55` for exactly three logos. -/
def lgStaggerX (w h : ℚ) (n : ℕ) : ℚ :=
  if n = 3 then lgRadius w h n * (55 / 100) else 0

/-- `logoBaseX`: the desired centre pulled left by half the stagger,
clamped by `maxBaseX = width - rightMargin - radius - stagger`. -/
def lgBaseX (w h : ℚ) (n : ℕ) : ℚ :=
  if 1 < n then
    min (w - 376 * lgScale w - lgStaggerX w h n / 2)
      (w - 55 * lgScale w - lgRadius w h n - lgStaggerX w h n)
  else w - 376 * lgScale w

structure LayoutGeometry where
  edgeMarginX : ℚ
  edgeMarginY : ℚ
  pillHeight : ℚ
  pillRadius : ℚ
  pillFontSize : ℚ
  pillX : ℚ
  pillY : ℚ
  pillPaddingX : ℚ
  titleFontSize : ℚ
  titleLineHeight : ℚ
  titleX : ℚ
  titleY : ℚ
  subtitleFontSize : ℚ
  subtitleLineHeight : ℚ
  subtitleBottomBaselineY : ℚ
  desiredLogoCenterX : ℚ
  logoRightMargin : ℚ
  logoEdgeMarginY : ℚ
  logoGap : ℚ
  logoCircleRadius : ℚ
  logoSpacing : ℚ
  logoStartY : ℚ
  logoBaseX : ℚ
  logoStaggerX : ℚ
deriving DecidableEq

/-- All deterministic geometry of `generateSvg` at output resolution
`(w, h)` with `n` selected logos. -/
def layoutGeometry (w h : ℚ) (n : ℕ) : LayoutGeometry :=
  { edgeMarginX := 75 * lgScale w
    edgeMarginY := 132 * lgScale w
    pillHeight := 126 * lgScale w
    pillRadius := 126 * lgScale w / 2
    pillFontSize := 88 * lgScale w
    pillX := 75 * lgScale w
    pillY := 132 * lgScale w
    pillPaddingX := 44 * lgScale w
    titleFontSize := 133 * lgScale w
    titleLineHeight := 133 * lgScale w * (11 / 10)
    titleX := 73 * lgScale w
    titleY := 444 * lgScale w
    subtitleFontSize := 75 * lgScale w
    subtitleLineHeight := 75 * lgScale w * (11 / 10)
    subtitleBottomBaselineY := h - 132 * lgScale w
    desiredLogoCenterX := w - 376 * lgScale w
    logoRightMargin := 55 * lgScale w
    logoEdgeMarginY := 55 * lgScale w
    logoGap := lgGap w n
    logoCircleRadius := lgRadius w h n
    logoSpacing := lgSpacing w h n
    logoStartY := lgStartY w h n
    logoBaseX := lgBaseX w h n
    logoStaggerX := lgStaggerX w h n }

/-- Multiply every geometric quantity by a scalar. -/
def geomScale (c : ℚ) (g : LayoutGeometry) : LayoutGeometry :=
  { edgeMarginX := c * g.edgeMarginX
    edgeMarginY := c * g.edgeMarginY
    pillHeight := c * g.pillHeight
    pillRadius := c * g.pillRadius
    pillFontSize := c * g.pillFontSize
    pillX := c * g.pillX
    pillY := c * g.pillY
    pillPaddingX := c * g.pillPaddingX
    titleFontSize := c * g.titleFontSize
    titleLineHeight := c * g.titleLineHeight
    titleX := c * g.titleX
    titleY := c * g.titleY
    subtitleFontSize := c * g.subtitleFontSize
    subtitleLineHeight := c * g.subtitleLineHeight
    subtitleBottomBaselineY := c * g.subtitleBottomBaselineY
    desiredLogoCenterX := c * g.desiredLogoCenterX
    logoRightMargin := c * g.logoRightMargin
    logoEdgeMarginY := c * g.logoEdgeMarginY
    logoGap := c * g.logoGap
    logoCircleRadius := c * g.logoCircleRadius
    logoSpacing := c * g.logoSpacing
    logoStartY := c * g.logoStartY
    logoBaseX := c * g.logoBaseX
    logoStaggerX := c * g.logoStaggerX }

theorem two_mul_min (a b : ℚ) : 2 * min a b = min (2 * a) (2 * b) := by
  rcases le_total a b with hab | hab
  · rw [min_eq_left hab, min_eq_left (by linarith)]
  · rw [min_eq_right hab, min_eq_right (by linarith)]

theorem two_mul_max (a b : ℚ) : 2 * max a b = max (2 * a) (2 * b) := by
  rcases le_total a b with hab | hab
  · rw [max_eq_right hab, max_eq_right (by linarith)]
  · rw [max_eq_left hab, max_eq_left (by linarith)]

theorem lgScale_double (w : ℚ) : lgScale (2 * w) = 2 * lgScale w := by
  unfold lgScale; ring

theorem lgGap_double (w : ℚ) (n : ℕ) : lgGap (2 * w) n = 2 * lgGap w n := by
  unfold lgGap
  rw [lgScale_double]
  ring

theorem lgRadius_double (w h : ℚ) (n : ℕ) :
    lgRadius (2 * w) (2 * h) n = 2 * lgRadius w h n := by
  unfold lgRadius
  by_cases h1 : 1 < n
  · rw [if_pos h1, if_pos h1, lgScale_double, lgGap_double, two_mul_min]
    congr 1
    · ring
    · have hM : max (0 : ℚ) (2 * h - 2 * (55 * (2 * lgScale w))) =
          2 * max 0 (h - 2 * (55 * lgScale w)) := by
        rw [two_mul_max]
        congr 1
        · norm_num
        · ring
      rw [hM, ← mul_div_assoc]
      congr 1
      ring
  · rw [if_neg h1, if_neg h1, lgScale_double]
    ring

theorem lgStackHeight_double (w h : ℚ) (n : ℕ) :
    lgStackHeight (2 * w) (2 * h) n = 2 * lgStackHeight w h n := by
  unfold lgStackHeight
  rw [lgRadius_double, lgGap_double]
  ring

theorem lgSpacing_double (w h : ℚ) (n : ℕ) :
    lgSpacing (2 * w) (2 * h) n = 2 * lgSpacing w h n := by
  unfold lgSpacing
  by_cases h1 : 1 < n
  · rw [if_pos h1, if_pos h1, lgRadius_double, lgGap_double]
    ring
  · rw [if_neg h1, if_neg h1]
    ring

theorem lgStartY_double (w h : ℚ) (n : ℕ) :
    lgStartY (2 * w) (2 * h) n = 2 * lgStartY w h n := by
  unfold lgStartY
  by_cases h1 : 1 < n
  · rw [if_pos h1, if_pos h1, lgScale_double, lgStackHeight_double, lgRadius_double]
    rw [mul_add, two_mul_max]
    congr 2
    · ring
    · ring
  · rw [if_neg h1, if_neg h1]
    ring

theorem lgStaggerX_double (w h : ℚ) (n : ℕ) :
    lgStaggerX (2 * w) (2 * h) n = 2 * lgStaggerX w h n := by
  unfold lgStaggerX
  by_cases h3 : n = 3
  · rw [if_pos h3, if_pos h3, lgRadius_double]
    ring
  · rw [if_neg h3, if_neg h3]
    ring

theorem lgBaseX_double (w h : ℚ) (n : ℕ) :
    lgBaseX (2 * w) (2 * h) n = 2 * lgBaseX w h n := by
  unfold lgBaseX
  by_cases h1 : 1 < n
  · rw [if_pos h1, if_pos h1, lgScale_double, lgStaggerX_double, lgRadius_double, two_mul_min]
    congr 1
    · ring
    · ring
  · rw [if_neg h1, if_neg h1, lgScale_double]
    ring

/-- C1 (amended): every width-derived linear dimension (margins, pill
height/radius/font size/padding and position, title and subtitle font
sizes and line heights, title position, logo gap, logo margins, desired
logo centre) equals its fixed reference constant times the single
scalar `scale = width / 1920`.  The subtitle bottom baseline is
anchored to the bottom edge (`height - 132*scale`), the single-logo
stack centre is `0.48*height`, and for two or more logos the circle
radius is the *minimum* of `205*scale` and the fit radius, so those
quantities depend on the height as well and are not fixed-constant
multiples of `scale`.  Self-similarity nevertheless holds exactly:
doubling both dimensions doubles every computed geometric quantity. -/
theorem layoutGeometry_scaling (w h : ℚ) (n : ℕ) :
    ((layoutGeometry w h n).edgeMarginX = 75 * lgScale w ∧
     (layoutGeometry w h n).edgeMarginY = 132 * lgScale w ∧
     (layoutGeometry w h n).pillHeight = 126 * lgScale w ∧
     (layoutGeometry w h n).pillRadius = 63 * lgScale w ∧
     (layoutGeometry w h n).pillFontSize = 88 * lgScale w ∧
     (layoutGeometry w h n).pillX = 75 * lgScale w ∧
     (layoutGeometry w h n).pillY = 132 * lgScale w ∧
     (layoutGeometry w h n).pillPaddingX = 44 * lgScale w ∧
     (layoutGeometry w h n).titleFontSize = 133 * lgScale w ∧
     (layoutGeometry w h n).titleLineHeight = (1463 / 10) * lgScale w ∧
     (layoutGeometry w h n).titleX = 73 * lgScale w ∧
     (layoutGeometry w h n).titleY = 444 * lgScale w ∧
     (layoutGeometry w h n).subtitleFontSize = 75 * lgScale w ∧
     (layoutGeometry w h n).subtitleLineHeight = (165 / 2) * lgScale w ∧
     (layoutGeometry w h n).desiredLogoCenterX = w - 376 * lgScale w ∧
     (layoutGeometry w h n).logoRightMargin = 55 * lgScale w ∧
     (layoutGeometry w h n).logoEdgeMarginY = 55 * lgScale w ∧
     (layoutGeometry w h n).logoGap = (if n = 3 then 18 else 24) * lgScale w ∧
     (layoutGeometry w h n).subtitleBottomBaselineY = h - 132 * lgScale w) ∧
    layoutGeometry (2 * w) (2 * h) n = geomScale 2 (layoutGeometry w h n) := by
  constructor
  · refine ⟨rfl, rfl, rfl, by simp only [layoutGeometry]; ring, rfl, rfl, rfl, rfl, rfl,
      by simp only [layoutGeometry]; ring, rfl, rfl, rfl,
      by simp only [layoutGeometry]; ring, rfl, rfl, rfl, rfl, rfl⟩
  · simp only [layoutGeometry, geomScale, LayoutGeometry.mk.injEq]
    refine ⟨?_, ?_, ?_, ?_, ?_, ?_, ?_, ?_, ?_, ?_, ?_, ?_, ?_, ?_, ?_, ?_, ?_, ?_, ?_,
      ?_, ?_, ?_, ?_, ?_⟩
    · rw [lgScale_double]; ring
    · rw [lgScale_double]; ring
    · rw [lgScale_double]; ring
    · rw [lgScale_double]; ring
    · rw [lgScale_double]; ring
    · rw [lgScale_double]; ring
    · rw [lgScale_double]; ring
    · rw [lgScale_double]; ring
    · rw [lgScale_double]; ring
    · rw [lgScale_double]; ring
    · rw [lgScale_double]; ring
    · rw [lgScale_double]; ring
    · rw [lgScale_double]; ring
    · rw [lgScale_double]; ring
    · rw [lgScale_double]; ring
    · rw [lgScale_double]; ring
    · rw [lgScale_double]; ring
    · rw [lgScale_double]; ring
    · exact lgGap_double w n
    · exact lgRadius_double w h n
    · exact lgSpacing_double w h n
    · exact lgStartY_double w h n
    · exact lgBaseX_double w h n
    · exact lgStaggerX_double w h n

/-- C1 counterexample: the claim's flat "every computed linear
dimension equals `constant × scale`" fails.  At the reference
resolution 1920×1080 with 3 logos (`scale = 1`) the computed circle
radius is the fit radius `467/3 ≈ 155.67`, not the reference
`205 * scale`; and the subtitle baseline is bottom-anchored, so its
ratio to `scale` differs between 1920×1080 (948) and 1200×630 (876). -/
theorem layoutGeometry_claim_counterexample :
    (layoutGeometry 1920 1080 3).logoCircleRadius = 467 / 3 ∧
    (467 / 3 : ℚ) ≠ 205 * lgScale 1920 ∧
    (layoutGeometry 1920 1080 0).subtitleBottomBaselineY / lgScale 1920 = 948 ∧
    (layoutGeometry 1200 630 0).subtitleBottomBaselineY / lgScale 1200 = 876 ∧
    (948 : ℚ) ≠ 876 := by
  refine ⟨?_, by norm_num [lgScale], ?_, ?_, by norm_num⟩
  · simp only [layoutGeometry, lgRadius, lgGap, lgScale]
    norm_num [min_def, max_def]
  · simp only [layoutGeometry, lgScale]
    norm_num
  · simp only [layoutGeometry, lgScale]
    norm_num

/-- The three resolutions offered by the resolution select control
(src/unnamed/part_000, lines 921-923): 1920×1080, 1280×720 and
1200×630. -/
def acceptedResolutions : List (ℚ × ℚ) := [(1920, 1080), (1280, 720), (1200, 630)]

/-- C6: for 1 to 3 logos at every accepted resolution, the circle
radius never exceeds the reference `205 * scale`; vertically adjacent
circles never overlap (their centre distance strictly exceeds the
diameter); every circle lies within the fixed 55*scale top/bottom
margins; and for three logos the staggered stack's rightmost extent
stays inside the canvas minus the fixed right margin. -/
theorem logoLayout_bounds (r : ℚ × ℚ) (n : ℕ)
    (hr : r ∈ acceptedResolutions) (hn : n = 1 ∨ n = 2 ∨ n = 3) :
    (layoutGeometry r.1 r.2 n).logoCircleRadius ≤ 205 * lgScale r.1 ∧
    (1 < n → 2 * (layoutGeometry r.1 r.2 n).logoCircleRadius <
      (layoutGeometry r.1 r.2 n).logoSpacing) ∧
    (∀ i : ℕ, i < n →
      (layoutGeometry r.1 r.2 n).logoEdgeMarginY ≤
        (layoutGeometry r.1 r.2 n).logoStartY + i * (layoutGeometry r.1 r.2 n).logoSpacing -
          (layoutGeometry r.1 r.2 n).logoCircleRadius ∧
      (layoutGeometry r.1 r.2 n).logoStartY + i * (layoutGeometry r.1 r.2 n).logoSpacing +
          (layoutGeometry r.1 r.2 n).logoCircleRadius ≤
        r.2 - (layoutGeometry r.1 r.2 n).logoEdgeMarginY) ∧
    (n = 3 →
      (layoutGeometry r.1 r.2 n).logoBaseX + (layoutGeometry r.1 r.2 n).logoStaggerX +
        (layoutGeometry r.1 r.2 n).logoCircleRadius ≤
      r.1 - (layoutGeometry r.1 r.2 n).logoRightMargin) := by
  fin_cases hr <;> rcases hn with rfl | rfl | rfl <;>
    refine ⟨?_, fun h1 => ?_, fun i hi => ⟨?_, ?_⟩, fun h3 => ?_⟩ <;>
    try omega
  all_goals try interval_cases i
  all_goals norm_num [layoutGeometry, lgRadius, lgGap, lgScale, lgSpacing, lgStartY,
    lgStaggerX, lgBaseX, lgStackHeight, min_def, max_def]

/-- C6 witness: one logo at 1920×1080 — the radius achieves (and stays
within) the reference bound and the single circle respects the
margins. -/
theorem logoLayout_bounds_witness :
    (layoutGeometry 1920 1080 1).logoCircleRadius ≤ 205 * lgScale 1920 ∧
    (layoutGeometry 1920 1080 1).logoEdgeMarginY ≤
      (layoutGeometry 1920 1080 1).logoStartY + 0 * (layoutGeometry 1920 1080 1).logoSpacing -
        (layoutGeometry 1920 1080 1).logoCircleRadius := by
  have h := logoLayout_bounds (1920, 1080) 1 (by simp [acceptedResolutions]) (Or.inl rfl)
  exact ⟨h.1, (h.2.2.1 0 (by norm_num)).1⟩

/-! ## Text wrapping (src/unnamed/part_000, lines 21-38 and 43-67)

`wrapText` splits on the single character `' '` (JS `text.split(' ')`,
keeping empty fragments) and greedily accumulates words, trimming each
candidate line.  `wrapTextToWidth` splits on whitespace runs
(`text.split(/\s+/).filter(Boolean)`) and accepts a candidate line when
the measurement oracle says it fits. -/

/-- JS `str.split(sep)` for a one-character separator (empty fragments
kept, as JS does). -/
def splitChGo (sep : Char) (cur : List Char) : List Char → List (List Char)
  | [] => [cur.reverse]
  | c :: rest =>
    if c = sep then cur.reverse :: splitChGo sep [] rest
    else splitChGo sep (c :: cur) rest

def splitCh (sep : Char) (s : List Char) : List (List Char) := splitChGo sep [] s

/-- JS `str.split(/\s+/).filter(Boolean)`: the maximal whitespace-free
runs of the string, in order. -/
def wsWordsGo (cur : List Char) : List Char → List (List Char)
  | [] => if cur = [] then [] else [cur.reverse]
  | c :: rest =>
    if isWs c then
      (if cur = [] then wsWordsGo [] rest else cur.reverse :: wsWordsGo [] rest)
    else wsWordsGo (c :: cur) rest

def wsWords (s : List Char) : List (List Char) := wsWordsGo [] s

/-- Join, dropping empty entries, separating the rest with one space —
`xs.filter(Boolean).join(' ')`. -/
def spaceCat (a b : List Char) : List Char :=
  if a = [] then b else if b = [] then a else a ++ ' ' :: b

def joinWords : List (List Char) → List Char
  | [] => []
  | w :: rest => spaceCat w (joinWords rest)

/-- JS `lines.join(' ')`. -/
def sepJoin (sep : Char) : List (List Char) → List Char
  | [] => []
  | [w] => w
  | w :: rest => w ++ sep :: sepJoin sep rest

/-- The whitespace-normalized content of a string, from the claim's
words: its whitespace-separated words joined by single spaces. -/
def normalizeWs (s : List Char) : List Char := sepJoin ' ' (wsWords s)

/-- Greedy character-budget accumulation (lines 27-34): candidate is
`(currentLine + ' ' + word).trim()`; it is accepted when its length
fits, otherwise the current line (when non-empty) is committed and the
word starts a new line. -/
def wrapTextGo (maxChars : ℕ) : List (List Char) → List Char → List (List Char) → List (List Char)
  | [], current, lines => if current = [] then lines else lines ++ [current]
  | w :: rest, current, lines =>
    let cand := trim (current ++ ' ' :: w)
    if cand.length ≤ maxChars then wrapTextGo maxChars rest cand lines
    else wrapTextGo maxChars rest w (if current = [] then lines else lines ++ [current])

def wrapText (text : List Char) (maxChars : ℕ) : List (List Char) :=
  if text = [] then [] else wrapTextGo maxChars (splitCh ' ' text) [] []

/-- Greedy width-budget accumulation (lines 54-63): the candidate is
`current ? current + ' ' + word : word`, accepted when
`ctx.measureText(next).width <= maxWidth`. -/
def wrapToWidthGo (fits : List Char → Bool) :
    List (List Char) → List Char → List (List Char) → List (List Char)
  | [], current, lines => if current = [] then lines else lines ++ [current]
  | w :: rest, current, lines =>
    let next := if current = [] then w else current ++ ' ' :: w
    if fits next then wrapToWidthGo fits rest next lines
    else wrapToWidthGo fits rest w (if current = [] then lines else lines ++ [current])

/-- `wrapTextToWidth` (lines 43-67): `measure = none` models a missing
canvas context or font (the code then falls back to character wrapping
at 22 characters); a non-positive width also falls back.
`Number.isFinite` is always true in the rational model. -/
def wrapTextToWidth (text : List Char) (maxWidth : ℚ)
    (measure : Option (List Char → ℚ)) : List (List Char) :=
  if text = [] then []
  else
    match measure with
    | none => wrapText text 22
    | some m =>
      if maxWidth ≤ 0 then wrapText text 22
      else wrapToWidthGo (fun s => decide (m s ≤ maxWidth)) (wsWords text) [] []

/-- A string containing no whitespace at all. -/
def WsFree (w : List Char) : Prop := ∀ c ∈ w, isWs c = false

/-- A string with no leading and no trailing whitespace (`trimStart`
and `trimEnd` are the identity on it). -/
def EdgeOk (l : List Char) : Prop := trimStart l = l ∧ trimEnd l = l

theorem dropWhile_fix_head (p : Char → Bool) (c : Char) (t : List Char)
    (h : (c :: t).dropWhile p = c :: t) : p c = false := by
  by_cases hc : p c = true
  · rw [List.dropWhile_cons, if_pos hc] at h
    have hlen := congrArg List.length h
    have hle : (t.dropWhile p).length ≤ t.length := (List.dropWhile_sublist p).length_le
    simp only [List.length_cons] at hlen
    omega
  · simpa using hc

theorem dropWhile_wsFree (w : List Char) (hw : WsFree w) : w.dropWhile isWs = w := by
  cases w with
  | nil => rfl
  | cons c t => exact dropWhile_cons_false isWs c t (hw c (List.mem_cons_self c t))

theorem wsFree_reverse (w : List Char) (hw : WsFree w) : WsFree w.reverse := by
  intro c hc
  exact hw c (List.mem_reverse.mp hc)

theorem wsFree_edgeOk (w : List Char) (hw : WsFree w) : EdgeOk w := by
  refine ⟨dropWhile_wsFree w hw, ?_⟩
  unfold trimEnd
  rw [dropWhile_wsFree w.reverse (wsFree_reverse w hw), List.reverse_reverse]

theorem edgeOk_nil : EdgeOk [] := ⟨rfl, rfl⟩

theorem edgeOk_head (c : Char) (t : List Char) (h : EdgeOk (c :: t)) : isWs c = false :=
  dropWhile_fix_head isWs c t h.1

theorem revDrop_of_trimEnd (l : List Char) (h : trimEnd l = l) :
    l.reverse.dropWhile isWs = l.reverse := by
  unfold trimEnd at h
  have h2 := congrArg List.reverse h
  rwa [List.reverse_reverse] at h2

theorem trimStart_keep (c : Char) (t : List Char) (hc : isWs c = false) :
    trimStart (c :: t) = c :: t :=
  dropWhile_cons_false isWs c t hc

theorem trimEnd_keep (x w : List Char) (hw : WsFree w) (hne : w ≠ []) :
    trimEnd (x ++ w) = x ++ w := by
  unfold trimEnd
  rw [List.reverse_append]
  cases hwr : w.reverse with
  | nil =>
    exact absurd (by simpa using congrArg List.reverse hwr) hne
  | cons e u =>
    have he : isWs e = false := by
      have hmem : e ∈ w.reverse := by rw [hwr]; exact List.mem_cons_self e u
      exact wsFree_reverse w hw e hmem
    rw [List.cons_append, List.dropWhile_cons, if_neg (by simp [he]), ← List.cons_append,
      ← hwr, ← List.reverse_append, List.reverse_reverse]

theorem trimEnd_append_space (x : List Char) (hx : trimEnd x = x) :
    trimEnd (x ++ [' ']) = x := by
  unfold trimEnd
  rw [List.reverse_append]
  rw [show ([' '] : List Char).reverse ++ x.reverse = ' ' :: x.reverse from rfl]
  rw [List.dropWhile_cons, if_pos (by decide)]
  rw [revDrop_of_trimEnd x hx, List.reverse_reverse]

theorem trim_space_word (w : List Char) (hw : WsFree w) : trim (' ' :: w) = w := by
  unfold trim trimStart
  rw [List.dropWhile_cons, if_pos (by decide)]
  rw [dropWhile_wsFree w hw]
  exact (wsFree_edgeOk w hw).2

/-- `(current + ' ' + word).trim()` with an edge-clean current line and
a whitespace-free word is exactly the space-join that drops empty
parts. -/
theorem trim_cat (current w : List Char) (hc : EdgeOk current) (hw : WsFree w) :
    trim (current ++ ' ' :: w) = spaceCat current w := by
  cases current with
  | nil => simpa [spaceCat] using trim_space_word w hw
  | cons c0 t0 =>
    have hhead : isWs c0 = false := edgeOk_head c0 t0 hc
    unfold trim
    rw [show (c0 :: t0) ++ ' ' :: w = c0 :: (t0 ++ ' ' :: w) from rfl]
    rw [trimStart_keep c0 (t0 ++ ' ' :: w) hhead]
    rcases eq_or_ne w [] with rfl | hwne
    · rw [show c0 :: (t0 ++ ' ' :: ([] : List Char)) = (c0 :: t0) ++ [' '] from rfl]
      rw [trimEnd_append_space (c0 :: t0) hc.2]
      simp [spaceCat]
    · rw [show c0 :: (t0 ++ ' ' :: w) = ((c0 :: t0) ++ [' ']) ++ w from by simp]
      rw [trimEnd_keep ((c0 :: t0) ++ [' ']) w hw hwne]
      simp [spaceCat, hwne, List.append_assoc]

theorem edgeOk_spaceCat (current w : List Char) (hc : EdgeOk current) (hw : WsFree w) :
    EdgeOk (spaceCat current w) := by
  rcases eq_or_ne current [] with rfl | hne
  · simpa [spaceCat] using wsFree_edgeOk w hw
  · rcases eq_or_ne w [] with rfl | hwne
    · simpa [spaceCat, hne] using hc
    · rw [show spaceCat current w = current ++ ' ' :: w from by simp [spaceCat, hne, hwne]]
      constructor
      · cases current with
        | nil => exact absurd rfl hne
        | cons c0 t0 =>
          exact trimStart_keep c0 (t0 ++ ' ' :: w) (edgeOk_head c0 t0 hc)
      · rw [show current ++ ' ' :: w = (current ++ [' ']) ++ w from by simp]
        exact trimEnd_keep (current ++ [' ']) w hw hwne

theorem spaceCat_nil_left (b : List Char) : spaceCat [] b = b := rfl

theorem spaceCat_nil_right (a : List Char) : spaceCat a [] = a := by
  rcases eq_or_ne a [] with rfl | ha
  · rfl
  · simp [spaceCat, ha]

theorem spaceCat_ne_nil (a b : List Char) (ha : a ≠ []) : spaceCat a b ≠ [] := by
  rcases eq_or_ne b [] with rfl | hb
  · simp [spaceCat, ha]
  · simp [spaceCat, ha, hb]

theorem spaceCat_assoc (a b c : List Char) :
    spaceCat (spaceCat a b) c = spaceCat a (spaceCat b c) := by
  rcases eq_or_ne a [] with rfl | ha
  · simp [spaceCat_nil_left]
  · rcases eq_or_ne b [] with rfl | hb
    · simp [spaceCat_nil_right, spaceCat_nil_left]
    · rcases eq_or_ne c [] with rfl | hc
      · simp [spaceCat_nil_right]
      · have h1 : spaceCat a b = a ++ ' ' :: b := by simp [spaceCat, ha, hb]
        have h2 : spaceCat b c = b ++ ' ' :: c := by simp [spaceCat, hb, hc]
        rw [h1, h2]
        rw [show spaceCat (a ++ ' ' :: b) c = (a ++ ' ' :: b) ++ ' ' :: c from by
          simp [spaceCat, hc]]
        rw [show spaceCat a (b ++ ' ' :: c) = a ++ ' ' :: (b ++ ' ' :: c) from by
          simp [spaceCat, ha]]
        simp [List.append_assoc]

theorem joinWords_append (xs ys : List (List Char)) :
    joinWords (xs ++ ys) = spaceCat (joinWords xs) (joinWords ys) := by
  induction xs with
  | nil => simp [joinWords, spaceCat_nil_left]
  | cons x xs2 ih =>
    rw [List.cons_append]
    rw [show joinWords (x :: (xs2 ++ ys)) = spaceCat x (joinWords (xs2 ++ ys)) from rfl]
    rw [show joinWords (x :: xs2) = spaceCat x (joinWords xs2) from rfl]
    rw [ih, spaceCat_assoc]

theorem joinWords_middle (ls : List (List Char)) (x : List Char) (rs : List (List Char)) :
    joinWords (ls ++ x :: rs) = spaceCat (joinWords ls) (spaceCat x (joinWords rs)) := by
  rw [show ls ++ x :: rs = ls ++ [x] ++ rs from by simp, joinWords_append, joinWords_append]
  rw [show joinWords [x] = x from spaceCat_nil_right x, spaceCat_assoc]

theorem joinWords_cons (w : List Char) (rest : List (List Char)) :
    joinWords (w :: rest) = spaceCat w (joinWords rest) := rfl

theorem next_eq_spaceCat (current w : List Char) (hw : w ≠ []) :
    (if current = [] then w else current ++ ' ' :: w) = spaceCat current w := by
  rcases eq_or_ne current [] with rfl | hc
  · simp [spaceCat]
  · simp [spaceCat, hc, hw]

theorem spaceCat_ne_nil_right (a b : List Char) (hb : b ≠ []) : spaceCat a b ≠ [] := by
  rcases eq_or_ne a [] with rfl | ha
  · simpa [spaceCat]
  · exact spaceCat_ne_nil a b ha

theorem wrapToWidthGo_join (fits : List Char → Bool) :
    ∀ (words : List (List Char)) (current : List Char) (lines : List (List Char)),
      (∀ w ∈ words, w ≠ []) →
      joinWords (wrapToWidthGo fits words current lines) =
        joinWords (lines ++ current :: words) := by
  intro words
  induction words with
  | nil =>
    intro current lines _
    simp only [wrapToWidthGo]
    rcases eq_or_ne current [] with rfl | hc
    · rw [if_pos rfl, joinWords_middle]
      simp [joinWords, spaceCat_nil_left, spaceCat_nil_right]
    · rw [if_neg hc]
  | cons w rest ih =>
    intro current lines hw
    have hwne : w ≠ [] := hw w (List.mem_cons_self w rest)
    have hrest : ∀ x ∈ rest, x ≠ [] := fun x hx => hw x (List.mem_cons_of_mem w hx)
    simp only [wrapToWidthGo]
    rw [next_eq_spaceCat current w hwne]
    by_cases hfit : fits (spaceCat current w) = true
    · rw [if_pos hfit, ih (spaceCat current w) lines hrest]
      rw [joinWords_middle, joinWords_middle, joinWords_cons]
      simp [spaceCat_assoc]
    · rw [if_neg hfit]
      rcases eq_or_ne current [] with rfl | hc
      · rw [if_pos rfl, ih w lines hrest]
        rw [joinWords_middle, joinWords_middle, joinWords_cons, spaceCat_nil_left]
      · rw [if_neg hc, ih w (lines ++ [current]) hrest]
        rw [show lines ++ [current] ++ w :: rest = lines ++ current :: (w :: rest) from by simp]

theorem wrapToWidthGo_lines (fits : List Char → Bool) :
    ∀ (words : List (List Char)) (current : List Char) (lines : List (List Char)),
      (∀ l ∈ lines, l ≠ []) →
      ∀ l ∈ wrapToWidthGo fits words current lines, l ≠ [] := by
  intro words
  induction words with
  | nil =>
    intro current lines hl
    simp only [wrapToWidthGo]
    rcases eq_or_ne current [] with rfl | hc
    · rw [if_pos rfl]; exact hl
    · rw [if_neg hc]
      intro l hmem
      rcases List.mem_append.mp hmem with h | h
      · exact hl l h
      · rw [List.mem_singleton.mp h]; exact hc
  | cons w rest ih =>
    intro current lines hl
    simp only [wrapToWidthGo]
    by_cases hfit : fits (if current = [] then w else current ++ ' ' :: w) = true
    · rw [if_pos hfit]
      exact ih _ lines hl
    · rw [if_neg hfit]
      rcases eq_or_ne current [] with rfl | hc
      · rw [if_pos rfl]
        exact ih w lines hl
      · rw [if_neg hc]
        refine ih w (lines ++ [current]) ?_
        intro l hmem
        rcases List.mem_append.mp hmem with h | h
        · exact hl l h
        · rw [List.mem_singleton.mp h]; exact hc

theorem wrapTextGo_join (maxChars : ℕ) :
    ∀ (words : List (List Char)) (current : List Char) (lines : List (List Char)),
      (∀ w ∈ words, WsFree w) → EdgeOk current →
      joinWords (wrapTextGo maxChars words current lines) =
        joinWords (lines ++ current :: words) := by
  intro words
  induction words with
  | nil =>
    intro current lines _ _
    simp only [wrapTextGo]
    rcases eq_or_ne current [] with rfl | hc
    · rw [if_pos rfl, joinWords_middle]
      simp [joinWords, spaceCat_nil_left, spaceCat_nil_right]
    · rw [if_neg hc]
  | cons w rest ih =>
    intro current lines hw hcur
    have hwfree : WsFree w := hw w (List.mem_cons_self w rest)
    have hrest : ∀ x ∈ rest, WsFree x := fun x hx => hw x (List.mem_cons_of_mem w hx)
    simp only [wrapTextGo]
    rw [trim_cat current w hcur hwfree]
    by_cases hfit : (spaceCat current w).length ≤ maxChars
    · rw [if_pos hfit, ih (spaceCat current w) lines hrest (edgeOk_spaceCat current w hcur hwfree)]
      rw [joinWords_middle, joinWords_middle, joinWords_cons]
      simp [spaceCat_assoc]
    · rw [if_neg hfit]
      rcases eq_or_ne current [] with rfl | hc
      · rw [if_pos rfl, ih w lines hrest (wsFree_edgeOk w hwfree)]
        rw [joinWords_middle, joinWords_middle, joinWords_cons, spaceCat_nil_left]
      · rw [if_neg hc, ih w (lines ++ [current]) hrest (wsFree_edgeOk w hwfree)]
        rw [show lines ++ [current] ++ w :: rest = lines ++ current :: (w :: rest) from by simp]

theorem wrapTextGo_lines (maxChars : ℕ) :
    ∀ (words : List (List Char)) (current : List Char) (lines : List (List Char)),
      (∀ l ∈ lines, l ≠ []) →
      ∀ l ∈ wrapTextGo maxChars words current lines, l ≠ [] := by
  intro words
  induction words with
  | nil =>
    intro current lines hl
    simp only [wrapTextGo]
    rcases eq_or_ne current [] with rfl | hc
    · rw [if_pos rfl]; exact hl
    · rw [if_neg hc]
      intro l hmem
      rcases List.mem_append.mp hmem with h | h
      · exact hl l h
      · rw [List.mem_singleton.mp h]; exact hc
  | cons w rest ih =>
    intro current lines hl
    simp only [wrapTextGo]
    by_cases hfit : (trim (current ++ ' ' :: w)).length ≤ maxChars
    · rw [if_pos hfit]
      exact ih _ lines hl
    · rw [if_neg hfit]
      rcases eq_or_ne current [] with rfl | hc
      · rw [if_pos rfl]
        exact ih w lines hl
      · rw [if_neg hc]
        refine ih w (lines ++ [current]) ?_
        intro l hmem
        rcases List.mem_append.mp hmem with h | h
        · exact hl l h
        · rw [List.mem_singleton.mp h]; exact hc

theorem sepJoin_eq_joinWords :
    ∀ xs : List (List Char), (∀ w ∈ xs, w ≠ []) → sepJoin ' ' xs = joinWords xs := by
  intro xs
  induction xs with
  | nil => intro _; rfl
  | cons w rest ih =>
    intro hxs
    have hwne : w ≠ [] := hxs w (List.mem_cons_self w rest)
    have hrest : ∀ x ∈ rest, x ≠ [] := fun x hx => hxs x (List.mem_cons_of_mem w hx)
    cases rest with
    | nil =>
      rw [show sepJoin ' ' [w] = w from rfl, joinWords_cons]
      exact (spaceCat_nil_right w).symm
    | cons r rest2 =>
      have hjne : joinWords (r :: rest2) ≠ [] := by
        rw [joinWords_cons]
        exact spaceCat_ne_nil r _ (hrest r (List.mem_cons_self r rest2))
      calc sepJoin ' ' (w :: r :: rest2)
          = w ++ ' ' :: sepJoin ' ' (r :: rest2) := rfl
        _ = w ++ ' ' :: joinWords (r :: rest2) := by rw [ih hrest]
        _ = spaceCat w (joinWords (r :: rest2)) := by
            unfold spaceCat
            rw [if_neg hwne, if_neg hjne]
        _ = joinWords (w :: r :: rest2) := rfl

theorem joinWords_filter :
    ∀ xs : List (List Char), joinWords (xs.filter (fun w => !w.isEmpty)) = joinWords xs := by
  intro xs
  induction xs with
  | nil => rfl
  | cons w rest ih =>
    rcases eq_or_ne w [] with rfl | hw
    · rw [show List.filter (fun w => !w.isEmpty) ([] :: rest) =
        List.filter (fun w => !w.isEmpty) rest from by simp, ih, joinWords_cons,
        spaceCat_nil_left]
    · rw [show List.filter (fun w => !w.isEmpty) (w :: rest) =
        w :: List.filter (fun w => !w.isEmpty) rest from by simp [List.filter_cons, hw],
        joinWords_cons, joinWords_cons, ih]

theorem wsWordsGo_sound :
    ∀ (s cur : List Char), WsFree cur →
      ∀ w ∈ wsWordsGo cur s, w ≠ [] ∧ WsFree w := by
  intro s
  induction s with
  | nil =>
    intro cur hcur w hmem
    simp only [wsWordsGo] at hmem
    rcases eq_or_ne cur [] with rfl | hc
    · rw [if_pos rfl] at hmem
      exact absurd hmem (List.not_mem_nil w)
    · rw [if_neg hc] at hmem
      rw [List.mem_singleton.mp hmem]
      exact ⟨by simpa using hc, wsFree_reverse cur hcur⟩
  | cons c rest ih =>
    intro cur hcur w hmem
    simp only [wsWordsGo] at hmem
    by_cases hc : isWs c = true
    · rw [if_pos hc] at hmem
      rcases eq_or_ne cur [] with rfl | hcne
      · rw [if_pos rfl] at hmem
        exact ih [] (by intro x hx; exact absurd hx (List.not_mem_nil x)) w hmem
      · rw [if_neg hcne] at hmem
        rcases List.mem_cons.mp hmem with rfl | hmem2
        · exact ⟨by simpa using hcne, wsFree_reverse cur hcur⟩
        · exact ih [] (by intro x hx; exact absurd hx (List.not_mem_nil x)) w hmem2
    · rw [if_neg hc] at hmem
      refine ih (c :: cur) ?_ w hmem
      intro x hx
      rcases List.mem_cons.mp hx with rfl | hx2
      · simpa using hc
      · exact hcur x hx2

theorem splitChGo_wsFree :
    ∀ (s cur : List Char), (∀ c ∈ s, isWs c = true → c = ' ') → WsFree cur →
      ∀ w ∈ splitChGo ' ' cur s, WsFree w := by
  intro s
  induction s with
  | nil =>
    intro cur _ hcur w hmem
    simp only [splitChGo] at hmem
    rw [List.mem_singleton.mp hmem]
    exact wsFree_reverse cur hcur
  | cons c rest ih =>
    intro cur hsp hcur w hmem
    have hsp2 : ∀ d ∈ rest, isWs d = true → d = ' ' :=
      fun d hd => hsp d (List.mem_cons_of_mem c hd)
    simp only [splitChGo] at hmem
    by_cases hc : c = ' '
    · rw [if_pos hc] at hmem
      rcases List.mem_cons.mp hmem with rfl | hmem2
      · exact wsFree_reverse cur hcur
      · exact ih [] hsp2 (by intro x hx; exact absurd hx (List.not_mem_nil x)) w hmem2
    · rw [if_neg hc] at hmem
      refine ih (c :: cur) hsp2 ?_ w hmem
      intro x hx
      rcases List.mem_cons.mp hx with rfl | hx2
      · by_cases hw : isWs x = true
        · exact absurd (hsp x (List.mem_cons_self x rest) hw) hc
        · simpa using hw
      · exact hcur x hx2

theorem splitCh_filter :
    ∀ (s cur : List Char), (∀ c ∈ s, isWs c = true → c = ' ') →
      (splitChGo ' ' cur s).filter (fun w => !w.isEmpty) = wsWordsGo cur s := by
  intro s
  induction s with
  | nil =>
    intro cur _
    simp only [splitChGo, wsWordsGo]
    rcases eq_or_ne cur [] with rfl | hc
    · simp
    · rw [if_neg hc]
      simp [List.filter_cons, hc]
  | cons c rest ih =>
    intro cur hsp
    have hsp2 : ∀ d ∈ rest, isWs d = true → d = ' ' :=
      fun d hd => hsp d (List.mem_cons_of_mem c hd)
    simp only [splitChGo, wsWordsGo]
    by_cases hc : c = ' '
    · rw [if_pos hc, if_pos (by rw [hc]; decide)]
      rcases eq_or_ne cur [] with rfl | hcne
      · rw [if_pos rfl]
        simp only [List.filter_cons]
        rw [show (!(List.reverse ([] : List Char)).isEmpty) = false from rfl]
        simp only [Bool.false_eq_true, if_false]
        exact ih [] hsp2
      · rw [if_neg hcne]
        simp only [List.filter_cons]
        rw [show (!cur.reverse.isEmpty) = true from by
          simp [List.isEmpty_iff, hcne]]
        simp only [if_true]
        rw [ih [] hsp2]
    · have hcw : isWs c = false := by
        by_cases hw : isWs c = true
        · exact absurd (hsp c (List.mem_cons_self c rest) hw) hc
        · simpa using hw
      rw [if_neg hc, if_neg (by simp [hcw])]
      exact ih (c :: cur) hsp2

/-- C7 (amended): wrapping drops no words.  For the width-budget mode
this holds for every input text, every positive width budget and every
measurement function: joining the produced lines with single spaces
yields the whitespace-normalized input.  For the character-budget mode
(`wrapText`, which splits on the space character only) it holds for
every budget and every text whose whitespace consists of spaces; a tab
or newline is not a split point there, so other whitespace survives
into the output verbatim rather than being normalized. -/
theorem wrapping_no_drop :
    (∀ (m : List Char → ℚ) (text : List Char) (maxWidth : ℚ), 0 < maxWidth →
      sepJoin ' ' (wrapTextToWidth text maxWidth (some m)) = normalizeWs text) ∧
    (∀ (text : List Char) (maxChars : ℕ), (∀ c ∈ text, isWs c = true → c = ' ') →
      sepJoin ' ' (wrapText text maxChars) = normalizeWs text) := by
  have hnilfree : WsFree ([] : List Char) := by
    intro x hx; exact absurd hx (List.not_mem_nil x)
  have hwsne : ∀ t : List Char, ∀ w ∈ wsWords t, w ≠ [] :=
    fun t w hw => (wsWordsGo_sound t [] hnilfree w hw).1
  have hnorm : ∀ t : List Char, normalizeWs t = joinWords (wsWords t) := by
    intro t
    exact sepJoin_eq_joinWords (wsWords t) (hwsne t)
  constructor
  · intro m text W hW
    simp only [wrapTextToWidth]
    rcases eq_or_ne text [] with rfl | hne
    · rw [if_pos rfl]; rfl
    · rw [if_neg hne, if_neg (not_le.mpr hW)]
      rw [sepJoin_eq_joinWords _
        (wrapToWidthGo_lines _ (wsWords text) [] []
          (by intro l hl; exact absurd hl (List.not_mem_nil l)))]
      rw [wrapToWidthGo_join _ (wsWords text) [] [] (hwsne text)]
      rw [show ([] : List (List Char)) ++ [] :: wsWords text = [] :: wsWords text from rfl]
      rw [joinWords_cons, spaceCat_nil_left, hnorm]
  · intro text maxChars hsp
    unfold wrapText
    rcases eq_or_ne text [] with rfl | hne
    · rw [if_pos rfl]; rfl
    · rw [if_neg hne]
      rw [sepJoin_eq_joinWords _
        (wrapTextGo_lines maxChars (splitCh ' ' text) [] []
          (by intro l hl; exact absurd hl (List.not_mem_nil l)))]
      rw [wrapTextGo_join maxChars (splitCh ' ' text) [] []
        (splitChGo_wsFree text [] hsp hnilfree) edgeOk_nil]
      rw [show ([] : List (List Char)) ++ [] :: splitCh ' ' text =
        [] :: splitCh ' ' text from rfl]
      rw [joinWords_cons, spaceCat_nil_left]
      rw [← joinWords_filter (splitCh ' ' text)]
      rw [show (splitCh ' ' text).filter (fun w => !w.isEmpty) = wsWords text from
        splitCh_filter text [] hsp]
      rw [hnorm]

/-- C7 witness: the width-budget law at a measured two-word text and
the character-budget law at a space-separated text. -/
theorem wrapping_no_drop_witness :
    sepJoin ' ' (wrapTextToWidth (chars "ab cd") 2 (some (fun s => (s.length : ℚ)))) =
      normalizeWs (chars "ab cd") ∧
    sepJoin ' ' (wrapText (chars "a b") 1) = normalizeWs (chars "a b") := by
  constructor
  · exact wrapping_no_drop.1 (fun s => (s.length : ℚ)) (chars "ab cd") 2 (by norm_num)
  · exact wrapping_no_drop.2 (chars "a b") 1 (by decide)

/-- C7 counterexample: `wrapText` splits on the space character only,
so a tab survives verbatim: wrapping `"x\ta"` at any budget joins back
to `"x\ta"`, while the whitespace-normalized input is `"x a"`. -/
theorem wrapping_claim_counterexample :
    sepJoin ' ' (wrapText (chars "x\ta") 1) = chars "x\ta" ∧
    normalizeWs (chars "x\ta") = chars "x a" ∧
    chars "x\ta" ≠ chars "x a" := ⟨by decide, by decide, by decide⟩

/-! ## wrapTopicText (src/unnamed/part_000, lines 222-254)

```
if (!topic) return ['', '', ''];
const words = topic.split(' ');
for (const word of words) {
  if (currentLine.length + word.length + 1 <= maxCharsPerLine) { ... }
  else {
    if (currentLine) lines.push(currentLine);
    currentLine = word;
    if (lines.length >= maxLines - 1) {
      lines.push(words.slice(words.indexOf(word)).join(' ')); break;
    }
  }
}
if (currentLine && lines.length < maxLines) lines.push(currentLine);
while (lines.length < maxLines) lines.push('');
```
JS `maxLines - 1` on numbers and Nat subtraction agree for
`maxLines ≥ 1`; for `maxLines = 0` JS compares against `-1` and Nat
against `0`, and both comparisons are always true. -/

/-- `currentLine ? currentLine + ' ' + word : word`. -/
def jsWordJoin (current w : List Char) : List Char :=
  if current = [] then w else current ++ ' ' :: w

/-- The for-loop of `wrapTopicText`: returns the committed lines and
the pending `currentLine` at loop exit (normal end or `break`).  On
break the final pushed line is
`words.slice(words.indexOf(word)).join(' ')` — `indexOf` finds the
*first* occurrence of the overflowing word. -/
def wrapTopicGo (allWords : List (List Char)) (maxChars maxLines : ℕ) :
    List (List Char) → List Char → List (List Char) → List (List Char) × List Char
  | [], current, lines => (lines, current)
  | w :: rest, current, lines =>
    if current.length + w.length + 1 ≤ maxChars then
      wrapTopicGo allWords maxChars maxLines rest (jsWordJoin current w) lines
    else
      let lines2 := if current = [] then lines else lines ++ [current]
      if maxLines - 1 ≤ lines2.length then
        (lines2 ++ [sepJoin ' ' (allWords.drop (allWords.indexOf w))], w)
      else wrapTopicGo allWords maxChars maxLines rest w lines2

def wrapTopicText (topic : List Char) (maxChars maxLines : ℕ) : List (List Char) :=
  if topic = [] then [[], [], []]
  else
    let words := splitCh ' ' topic
    let r := wrapTopicGo words maxChars maxLines words [] []
    let lines2 := if r.2 ≠ [] ∧ r.1.length < maxLines then r.1 ++ [r.2] else r.1
    lines2 ++ List.replicate (maxLines - lines2.length) []

theorem wrapTopicGo_length (allWords : List (List Char)) (maxChars maxLines : ℕ) :
    ∀ (words : List (List Char)) (current : List Char) (lines : List (List Char)),
      lines.length + 2 ≤ maxLines →
      (wrapTopicGo allWords maxChars maxLines words current lines).1.length ≤ maxLines := by
  intro words
  induction words with
  | nil =>
    intro current lines hl
    simp only [wrapTopicGo]
    omega
  | cons w rest ih =>
    intro current lines hl
    simp only [wrapTopicGo]
    by_cases hfit : current.length + w.length + 1 ≤ maxChars
    · rw [if_pos hfit]
      exact ih (jsWordJoin current w) lines hl
    · rw [if_neg hfit]
      have hlen2 : (if current = [] then lines else lines ++ [current]).length ≤
          lines.length + 1 := by
        rcases eq_or_ne current [] with rfl | hc
        · simp
        · simp [hc]
      by_cases hbreak : maxLines - 1 ≤ (if current = [] then lines else lines ++ [current]).length
      · rw [if_pos hbreak]
        simp only [List.length_append, List.length_cons, List.length_nil]
        omega
      · rw [if_neg hbreak]
        refine ih w _ ?_
        omega

/-- C9 (amended): `wrapTopicText` returns a fixed `['', '', '']`
(exactly three empty strings, regardless of `maxLines`) for empty or
missing text; and for every non-empty topic it returns exactly
`maxLines` entries provided `maxLines ≥ 2` — short text is padded with
trailing empty strings and overflowing text is cut off with the
remaining words (from the first occurrence of the overflowing word)
joined into the final line. -/
theorem wrapTopicText_shape :
    (∀ maxChars maxLines : ℕ, wrapTopicText [] maxChars maxLines = [[], [], []]) ∧
    (∀ (topic : List Char) (maxChars maxLines : ℕ), topic ≠ [] → 2 ≤ maxLines →
      (wrapTopicText topic maxChars maxLines).length = maxLines) := by
  constructor
  · intro maxChars maxLines
    rw [wrapTopicText, if_pos rfl]
  · intro topic maxChars maxLines hne hml
    rw [wrapTopicText, if_neg hne]
    dsimp only
    have hgo := wrapTopicGo_length (splitCh ' ' topic) maxChars maxLines
      (splitCh ' ' topic) [] [] (by simpa using hml)
    generalize hgen : wrapTopicGo (splitCh ' ' topic) maxChars maxLines
      (splitCh ' ' topic) [] [] = r
    rw [hgen] at hgo
    have hl2 : (if r.2 ≠ [] ∧ r.1.length < maxLines then r.1 ++ [r.2] else r.1).length ≤
        maxLines := by
      split
      · rename_i hcond
        simp only [List.length_append, List.length_cons, List.length_nil]
        omega
      · exact hgo
    simp only [List.length_append, List.length_replicate]
    omega

/-- C9 witness: a concrete non-empty topic at the default budgets. -/
theorem wrapTopicText_shape_witness :
    wrapTopicText [] 25 2 = [[], [], []] ∧
    (wrapTopicText (chars "hello world") 25 3).length = 3 := by
  constructor
  · exact wrapTopicText_shape.1 25 2
  · exact wrapTopicText_shape.2 (chars "hello world") 25 3 (by decide) (by norm_num)

/-- C9 counterexample: with `maxLines = 2` and empty text the function
returns three entries, not `maxLines`. -/
theorem wrapTopicText_claim_counterexample :
    (wrapTopicText [] 25 2).length = 3 ∧ (3 : ℕ) ≠ 2 := by
  exact ⟨rfl, by decide⟩

/-! ## ellipsizeToWidth
(src/src/templates/CommunityStandupTemplate.jsx, lines 251-274)

```
if (!text || !measureCtx || !maxWidth || maxWidth <= 0) return text
measureCtx.font = titleFont
if (measureCtx.measureText(text).width <= maxWidth) return text
const trimmed = text.trim()
let low = 0, high = trimmed.length
while (low < high) {
  const mid = Math.ceil((low + high) / 2)
  const candidate = trimmed.slice(0, mid).trimEnd() + ellipsis
  if (measureCtx.measureText(candidate).width <= maxWidth) low = mid
  else high = mid - 1
}
return trimmed.slice(0, low).trimEnd() + ellipsis
```

The canvas measurement is a function argument; the spec's headless
fallback model (per-character additive widths) instantiates it in the
theorems.  The loop is written with an explicit fuel: each iteration
shrinks `high - low` by at least one, so `trimmed.length` fuel always
suffices. -/

/-- `trimmed.slice(0, k).trimEnd() + '…'`. -/
def ellipCandidate (trimmed : List Char) (k : ℕ) : List Char :=
  trimEnd (trimmed.take k) ++ ['…']

/-- The binary-search loop; returns the final `low` together with the
number of measurement calls made inside the loop. -/
def ellipLoop (P : ℕ → Bool) : ℕ → ℕ → ℕ → ℕ × ℕ
  | 0, low, _ => (low, 0)
  | fuel + 1, low, high =>
    if low < high then
      let mid := (low + high + 1) / 2
      if P mid then
        let r := ellipLoop P fuel mid high
        (r.1, r.2 + 1)
      else
        let r := ellipLoop P fuel low (mid - 1)
        (r.1, r.2 + 1)
    else (low, 0)

def ellipsizeToWidth (measure : List Char → ℚ) (text : List Char) (maxWidth : ℚ) :
    List Char :=
  if text = [] then text
  else if maxWidth ≤ 0 then text
  else if measure text ≤ maxWidth then text
  else
    ellipCandidate (trim text)
      (ellipLoop (fun k => decide (measure (ellipCandidate (trim text) k) ≤ maxWidth))
        (trim text).length 0 (trim text).length).1

/-- The number of `measureText` calls `ellipsizeToWidth` makes: one for
the initial overflow check plus one per loop iteration. -/
def ellipMeasureCalls (measure : List Char → ℚ) (text : List Char) (maxWidth : ℚ) : ℕ :=
  if text = [] then 0
  else if maxWidth ≤ 0 then 0
  else if measure text ≤ maxWidth then 1
  else
    1 + (ellipLoop (fun k => decide (measure (ellipCandidate (trim text) k) ≤ maxWidth))
      (trim text).length 0 (trim text).length).2

/-- The spec's additive text-measurement model (§4.1 heuristic): the
width of a string is the sum of its per-character widths. -/
def charMeasure (cw : Char → ℚ) (s : List Char) : ℚ := (s.map cw).sum

/-- Binary-search correctness: with a downward-closed fit test that
holds at 0, the loop returns the largest index in `[low, high]` at
which the test holds. -/
theorem ellipLoop_spec (P : ℕ → Bool) (hP : ∀ i j, i ≤ j → P j = true → P i = true) :
    ∀ (fuel low high : ℕ), high - low ≤ fuel → low ≤ high → P low = true →
      low ≤ (ellipLoop P fuel low high).1 ∧ (ellipLoop P fuel low high).1 ≤ high ∧
      P (ellipLoop P fuel low high).1 = true ∧
      ∀ j, (ellipLoop P fuel low high).1 < j → j ≤ high → P j = false := by
  intro fuel
  induction fuel with
  | zero =>
    intro low high hfuel hlh hPlow
    have heq : high = low := by omega
    subst heq
    simp only [ellipLoop]
    exact ⟨le_refl _, le_refl _, hPlow, fun j hj1 hj2 => by omega⟩
  | succ f ih =>
    intro low high hfuel hlh hPlow
    simp only [ellipLoop]
    by_cases hlt : low < high
    · rw [if_pos hlt]
      have hmid1 : low < (low + high + 1) / 2 := by omega
      have hmid2 : (low + high + 1) / 2 ≤ high := by omega
      by_cases hPmid : P ((low + high + 1) / 2) = true
      · rw [if_pos hPmid]
        have hrec := ih ((low + high + 1) / 2) high (by omega) hmid2 hPmid
        exact ⟨le_trans (le_of_lt hmid1) hrec.1, hrec.2.1, hrec.2.2.1, hrec.2.2.2⟩
      · rw [if_neg hPmid]
        have hrec := ih low ((low + high + 1) / 2 - 1) (by omega) (by omega) hPlow
        refine ⟨hrec.1, by omega, hrec.2.2.1, ?_⟩
        intro j hj1 hj2
        by_cases hjm : j ≤ (low + high + 1) / 2 - 1
        · exact hrec.2.2.2 j hj1 hjm
        · by_cases hPj : P j = true
          · exact absurd (hP ((low + high + 1) / 2) j (by omega) hPj)
              (by simpa using hPmid)
          · simpa using hPj
    · rw [if_neg hlt]
      exact ⟨le_refl low, by omega, hPlow, fun j hj1 hj2 => by omega⟩

theorem ellipLoop_count_zero (P : ℕ → Bool) :
    ∀ (fuel low high : ℕ), high ≤ low → (ellipLoop P fuel low high).2 = 0 := by
  intro fuel
  cases fuel with
  | zero => intro low high _; rfl
  | succ f =>
    intro low high hle
    simp only [ellipLoop]
    rw [if_neg (by omega)]

theorem log2_halving (g : ℕ) (hg : 2 ≤ g) : Nat.log2 g = Nat.log2 (g / 2) + 1 := by
  rw [Nat.log2]
  simp [hg]

theorem log2_mono (a b : ℕ) (h : a ≤ b) : Nat.log2 a ≤ Nat.log2 b := by
  rw [Nat.log2_eq_log_two, Nat.log2_eq_log_two]
  exact Nat.log_mono_right h

/-- Call-count bound: the loop makes at most `log2 (high - low) + 1`
measurement calls. -/
theorem ellipLoop_count (P : ℕ → Bool) :
    ∀ (fuel low high : ℕ), high - low ≤ fuel →
      (ellipLoop P fuel low high).2 ≤ Nat.log2 (high - low) + 1 := by
  intro fuel
  induction fuel with
  | zero =>
    intro low high hfuel
    cases low with
    | zero =>
      cases high with
      | zero => simp [ellipLoop]
      | succ h2 => omega
    | succ l2 => simp [ellipLoop]
  | succ f ih =>
    intro low high hfuel
    simp only [ellipLoop]
    by_cases hlt : low < high
    · rw [if_pos hlt]
      rcases eq_or_lt_of_le (Nat.succ_le_of_lt hlt) with hone | htwo
      · -- gap exactly 1: the recursive gap is 0 either way
        have hmid : (low + high + 1) / 2 = high := by omega
        by_cases hPmid : P ((low + high + 1) / 2) = true
        · rw [if_pos hPmid]
          have h0 := ellipLoop_count_zero P f ((low + high + 1) / 2) high (by omega)
          simp only [h0]
          omega
        · rw [if_neg hPmid]
          have h0 := ellipLoop_count_zero P f low ((low + high + 1) / 2 - 1) (by omega)
          simp only [h0]
          omega
      · -- gap at least 2
        have hgap : 2 ≤ high - low := by omega
        have hlog : Nat.log2 (high - low) = Nat.log2 ((high - low) / 2) + 1 :=
          log2_halving (high - low) hgap
        by_cases hPmid : P ((low + high + 1) / 2) = true
        · rw [if_pos hPmid]
          have hrec := ih ((low + high + 1) / 2) high (by omega)
          have hmono : Nat.log2 (high - (low + high + 1) / 2) ≤
              Nat.log2 ((high - low) / 2) := log2_mono _ _ (by omega)
          simp only
          omega
        · rw [if_neg hPmid]
          have hrec := ih low ((low + high + 1) / 2 - 1) (by omega)
          have hmono : Nat.log2 ((low + high + 1) / 2 - 1 - low) ≤
              Nat.log2 ((high - low) / 2) := log2_mono _ _ (by omega)
          simp only
          omega
    · rw [if_neg hlt]
      simp

theorem trimEnd_decomp (u : List Char) : ∃ s, u = trimEnd u ++ s := by
  refine ⟨(u.reverse.takeWhile isWs).reverse, ?_⟩
  unfold trimEnd
  conv_lhs => rw [← List.reverse_reverse u,
    ← List.takeWhile_append_dropWhile (p := isWs) (l := u.reverse)]
  rw [List.reverse_append]

theorem trimEnd_append_cases (u t : List Char) :
    trimEnd (u ++ t) = trimEnd u ∨ trimEnd (u ++ t) = u ++ trimEnd t := by
  unfold trimEnd
  rw [List.reverse_append, List.dropWhile_append]
  by_cases hd : (t.reverse.dropWhile isWs).isEmpty
  · left
    rw [if_pos hd]
  · right
    rw [if_neg hd, List.reverse_append, List.reverse_reverse]

theorem charMeasure_nonneg (cw : Char → ℚ) (hcw : ∀ c, 0 ≤ cw c) (s : List Char) :
    0 ≤ charMeasure cw s := by
  refine List.sum_nonneg ?_
  intro x hx
  obtain ⟨c, _, rfl⟩ := List.mem_map.mp hx
  exact hcw c

theorem charMeasure_append (cw : Char → ℚ) (a b : List Char) :
    charMeasure cw (a ++ b) = charMeasure cw a + charMeasure cw b := by
  simp [charMeasure]

theorem charMeasure_trimEnd_le (cw : Char → ℚ) (hcw : ∀ c, 0 ≤ cw c) (u : List Char) :
    charMeasure cw (trimEnd u) ≤ charMeasure cw u := by
  obtain ⟨s, hs⟩ := trimEnd_decomp u
  conv_rhs => rw [hs]
  rw [charMeasure_append]
  have := charMeasure_nonneg cw hcw s
  linarith

theorem charMeasure_trimEnd_mono (cw : Char → ℚ) (hcw : ∀ c, 0 ≤ cw c) (u t : List Char) :
    charMeasure cw (trimEnd u) ≤ charMeasure cw (trimEnd (u ++ t)) := by
  rcases trimEnd_append_cases u t with h | h
  · rw [h]
  · rw [h, charMeasure_append]
    have h1 := charMeasure_trimEnd_le cw hcw u
    have h2 := charMeasure_nonneg cw hcw (trimEnd t)
    linarith

/-- With an additive non-negative measure, the fit test at prefix
length `k` is downward closed in `k`. -/
theorem candidate_antitone (cw : Char → ℚ) (hcw : ∀ c, 0 ≤ cw c) (trimmed : List Char)
    (W : ℚ) :
    ∀ i j, i ≤ j →
      decide (charMeasure cw (ellipCandidate trimmed j) ≤ W) = true →
      decide (charMeasure cw (ellipCandidate trimmed i) ≤ W) = true := by
  intro i j hij hj
  rw [decide_eq_true_eq] at hj
  rw [decide_eq_true_eq]
  have hsplit : trimmed.take j = trimmed.take i ++ (trimmed.take j).drop i := by
    conv_lhs => rw [← List.take_append_drop i (trimmed.take j)]
    rw [List.take_take, Nat.min_eq_left hij]
  have hmono := charMeasure_trimEnd_mono cw hcw (trimmed.take i) ((trimmed.take j).drop i)
  rw [← hsplit] at hmono
  unfold ellipCandidate at hj ⊢
  rw [charMeasure_append] at hj ⊢
  linarith

/-- C5 (amended): for overflowing text with a positive budget, under
the additive per-character measurement model, `ellipsizeToWidth` trims
the text and returns the largest prefix (by character count) of the
trimmed text whose right-trimmed form with `'…'` appended fits the
budget — provided the bare ellipsis itself fits the budget.  The
result's measured width is then at most `maxWidth`, no longer prefix
satisfies the budget, and the measurement-call count is at most
`log2 (length) + 2`.  (When even the bare ellipsis overflows, the
search settles at 0 and the returned `'…'` exceeds the budget — see the
counterexample.) -/
theorem ellipsizeToWidth_spec (cw : Char → ℚ) (text : List Char) (maxWidth : ℚ)
    (hcw : ∀ c, 0 ≤ cw c)
    (hne : text ≠ [])
    (hpos : 0 < maxWidth)
    (hover : maxWidth < charMeasure cw text)
    (hfit : charMeasure cw ['…'] ≤ maxWidth) :
    ∃ k, k ≤ (trim text).length ∧
      ellipsizeToWidth (charMeasure cw) text maxWidth = ellipCandidate (trim text) k ∧
      charMeasure cw (ellipCandidate (trim text) k) ≤ maxWidth ∧
      (∀ j, k < j → j ≤ (trim text).length →
        maxWidth < charMeasure cw (ellipCandidate (trim text) j)) ∧
      ellipMeasureCalls (charMeasure cw) text maxWidth ≤
        Nat.log2 ((trim text).length) + 2 := by
  have hnotle : ¬ charMeasure cw text ≤ maxWidth := not_le.mpr hover
  have hnot0 : ¬ maxWidth ≤ 0 := not_le.mpr hpos
  set P : ℕ → Bool :=
    fun k => decide (charMeasure cw (ellipCandidate (trim text) k) ≤ maxWidth) with hPdef
  have hP0 : P 0 = true := by
    rw [hPdef]
    simp only
    rw [decide_eq_true_eq]
    rw [show ellipCandidate (trim text) 0 = ['…'] from rfl]
    exact hfit
  have hanti := candidate_antitone cw hcw (trim text) maxWidth
  have hanti2 : ∀ i j, i ≤ j → P j = true → P i = true := by
    intro i j hij hj
    rw [hPdef] at hj ⊢
    exact hanti i j hij hj
  have hspec := ellipLoop_spec P hanti2 (trim text).length 0 (trim text).length
    (by omega) (by omega) hP0
  have hcount := ellipLoop_count P (trim text).length 0 (trim text).length (by omega)
  refine ⟨(ellipLoop P (trim text).length 0 (trim text).length).1, hspec.2.1, ?_, ?_, ?_, ?_⟩
  · simp only [ellipsizeToWidth]
    rw [if_neg hne, if_neg hnot0, if_neg hnotle]
  · have h3 := hspec.2.2.1
    rw [hPdef] at h3
    simp only at h3
    rwa [decide_eq_true_eq] at h3
  · intro j hj1 hj2
    have h4 := hspec.2.2.2 j hj1 hj2
    rw [hPdef] at h4
    simp only at h4
    rw [decide_eq_false_iff_not] at h4
    exact not_le.mp h4
  · simp only [ellipMeasureCalls]
    rw [if_neg hne, if_neg hnot0, if_neg hnotle, ← hPdef]
    have hsub : (trim text).length - 0 = (trim text).length := by omega
    rw [hsub] at hcount
    omega

/-- C5 witness: the amended theorem at unit character widths, the
four-character text "abcd" and budget 2. -/
theorem ellipsizeToWidth_spec_witness :
    ∃ k, k ≤ (trim ['a', 'b', 'c', 'd']).length ∧
      ellipsizeToWidth (charMeasure (fun _ => 1)) ['a', 'b', 'c', 'd'] 2 =
        ellipCandidate (trim ['a', 'b', 'c', 'd']) k ∧
      charMeasure (fun _ => 1) (ellipCandidate (trim ['a', 'b', 'c', 'd']) k) ≤ 2 ∧
      (∀ j, k < j → j ≤ (trim ['a', 'b', 'c', 'd']).length →
        2 < charMeasure (fun _ => 1) (ellipCandidate (trim ['a', 'b', 'c', 'd']) j)) ∧
      ellipMeasureCalls (charMeasure (fun _ => 1)) ['a', 'b', 'c', 'd'] 2 ≤
        Nat.log2 ((trim ['a', 'b', 'c', 'd']).length) + 2 := by
  refine ellipsizeToWidth_spec (fun _ => 1) ['a', 'b', 'c', 'd'] 2
    (fun c => by norm_num) (by decide) (by norm_num) ?_ ?_
  · norm_num [charMeasure, List.map_cons, List.map_nil, List.sum_cons, List.sum_nil]
  · norm_num [charMeasure, List.map_cons, List.map_nil, List.sum_cons, List.sum_nil]

theorem ellipLoop_two (P : ℕ → Bool) (hP1 : P 1 = false) : ellipLoop P 2 0 2 = (0, 1) := by
  show ellipLoop P (Nat.succ (Nat.succ 0)) 0 2 = (0, 1)
  simp only [ellipLoop]
  rw [if_pos (by norm_num : (0 : ℕ) < 2)]
  rw [show (0 + 2 + 1) / 2 = 1 from by norm_num]
  rw [hP1]
  norm_num

/-- C5 counterexample: with every character 10 units wide, the
two-character text "ab" overflows the (positive) budget 5, but so does
the bare ellipsis: the binary search settles at prefix length 0 and the
function returns `'…'`, whose measured width 10 exceeds the budget —
the claimed "result's measured width ≤ maxWidth" fails, and no prefix
satisfying the budget exists. -/
theorem ellipsize_claim_counterexample :
    (0 : ℚ) < 5 ∧
    5 < charMeasure (fun _ => (10 : ℚ)) ['a', 'b'] ∧
    ellipsizeToWidth (charMeasure (fun _ => (10 : ℚ))) ['a', 'b'] 5 = ['…'] ∧
    5 < charMeasure (fun _ => (10 : ℚ)) ['…'] := by
  have hm2 : charMeasure (fun _ => (10 : ℚ)) ['a', 'b'] = 20 := by
    norm_num [charMeasure, List.map_cons, List.map_nil, List.sum_cons, List.sum_nil]
  have hm1 : ∀ c : Char, charMeasure (fun _ => (10 : ℚ)) [c, '…'] = 20 := by
    intro c
    norm_num [charMeasure, List.map_cons, List.map_nil, List.sum_cons, List.sum_nil]
  have hme : charMeasure (fun _ => (10 : ℚ)) ['…'] = 10 := by
    norm_num [charMeasure, List.map_cons, List.map_nil, List.sum_cons, List.sum_nil]
  refine ⟨by norm_num, by rw [hm2]; norm_num, ?_, by rw [hme]; norm_num⟩
  simp only [ellipsizeToWidth]
  rw [if_neg (by decide : ¬(['a', 'b'] : List Char) = [])]
  rw [if_neg (by norm_num : ¬(5 : ℚ) ≤ 0)]
  rw [if_neg (by rw [hm2]; norm_num)]
  rw [show trim ['a', 'b'] = ['a', 'b'] from by decide]
  rw [show (['a', 'b'] : List Char).length = 2 from rfl]
  rw [ellipLoop_two _ ?_]
  · decide
  · show decide (charMeasure (fun _ => (10 : ℚ)) (ellipCandidate ['a', 'b'] 1) ≤ 5) = false
    rw [show ellipCandidate ['a', 'b'] 1 = ['a', '…'] from by decide]
    rw [decide_eq_false_iff_not]
    rw [hm1 'a']
    norm_num

end Thumb
